import Mathlib

/-!
Verification of the COSIMA om3-scripts experiment-manager engine
(`expts_manager/Expts_manager.py` and
`expts_manager/experiment_manager_tool/`), shallowly embedded in Lean.

Conventions used throughout this development:
* Python dicts that are built by insertion are modelled as association
  lists (`List (key × value)`), preserving insertion order.
* Python strings are modelled by `String` or, where character-level
  reasoning is required (the qstat parser), by `List Char`, which is the
  same data as `String.data`.
* Filesystem paths handled by `os.path` are modelled either as `String`s
  or as their `"/"`-separated segment lists, as noted at each definition.
* Fallible code (a Python `raise`) is modelled with `Except`/`Option`.
-/

/-- A YAML-sourced parameter value of a group, as consumed by
`PerturbExperiment._generate_combined_dicts` and
`Expts_manager._generate_individual_dicts`: either a scalar or a flat
list of scalars.  (List-of-list and dict-valued entries are indexed the
same way as flat lists by the source - both branches of the
`isinstance` chain assign `v[i]` - so `vlist` also stands for those,
with `α` instantiated to the element type.) -/
inductive PValue (α : Type) where
  | scalar : α → PValue α
  | vlist : List α → PValue α
  deriving DecidableEq

/-- Length of a list-valued `PValue`, `none` on scalars. -/
def PValue.listLen {α : Type} : PValue α → Option Nat
  | .scalar _ => none
  | .vlist l => some l.length

/-- Mirror of the guard
`any(len(v) != self.num_expts for v in name_dict.values() if isinstance(v, list))`
in `PerturbExperiment._generate_combined_dicts`. -/
def lenMismatch {α : Type} (numExpts : Nat) (nameDict : List (String × PValue α)) : Bool :=
  nameDict.any fun kv =>
    match kv.2 with
    | .vlist l => decide (l.length ≠ numExpts)
    | .scalar _ => false

/-- The change set built for experiment index `i` by the loop body of
`PerturbExperiment._generate_combined_dicts`: every list-valued
parameter contributes `v[i]`; scalar values match no `isinstance`
branch of the source and are dropped. -/
def comboChangeSet {α : Type} (nameDict : List (String × PValue α)) (i : Nat) :
    List (String × α) :=
  nameDict.filterMap fun kv =>
    match kv.2 with
    | .vlist l => (l.get? i).map fun x => (kv.1, x)
    | .scalar _ => none

/-- Embedding of `PerturbExperiment._generate_combined_dicts` on a group
of scalar/flat-list parameters (for which `_preprocess_nested_dicts` is
the identity).  The source performs the length check inside the
`for i in range(self.num_expts)` loop; the check does not depend on
`i`, so it fires (at `i = 0`) exactly when `numExpts > 0` and some
list length differs, before any change set is retained. -/
def generateCombinedDicts {α : Type} (numExpts : Nat)
    (nameDict : List (String × PValue α)) :
    Except String (List (List (String × α))) :=
  if 0 < numExpts ∧ lenMismatch numExpts nameDict then
    .error "The length of values is inconsistent with the number of experiments."
  else
    .ok ((List.range numExpts).map (comboChangeSet nameDict))

/-- The index-`i` projection of a group, keeping every key in group
order; used to state what combo expansion produces. -/
def changeSetAt {α : Type} (nameDict : List (String × PValue α)) (i : Nat) :
    List (String × Option α) :=
  nameDict.map fun kv =>
    match kv.2 with
    | .vlist l => (kv.1, l.get? i)
    | .scalar _ => (kv.1, none)

/-- Embedding of `Expts_manager._generate_individual_dicts`: each list
element and each scalar becomes its own single-key change set, in
declaration order. -/
def generateIndividualDicts {α : Type} (nameDict : List (String × PValue α)) :
    List (List (String × α)) :=
  nameDict.flatMap fun kv =>
    match kv.2 with
    | .vlist vs => vs.map fun x => [(kv.1, x)]
    | .scalar x => [[(kv.1, x)]]

/-- Number of change sets a single parameter contributes in individual
mode: its list length, or `1` for a scalar. -/
def indivWeight {α : Type} : PValue α → Nat
  | .scalar _ => 1
  | .vlist l => l.length

/-- Embedding of the non-combo branch of `Expts_manager._cal_num_expts`:
list values add their length to the running count, while a scalar value
RESETS the count to `1` (the source executes `self.num_expts = 1`, not
`+= 1`). -/
def calNumExpts {α : Type} (nameDict : List (String × PValue α)) : Nat :=
  nameDict.foldl
    (fun n kv =>
      match kv.2 with
      | .vlist l => n + l.length
      | .scalar _ => 1)
    0

/-- `true` exactly on list-valued parameter values. -/
def PValue.isVlist {α : Type} : PValue α → Bool
  | .scalar _ => false
  | .vlist _ => true

theorem comboChangeSet_map_eq {α : Type} (i : Nat) :
    ∀ nameDict : List (String × PValue α),
      (∀ kv ∈ nameDict, ∃ l, kv.2 = PValue.vlist l ∧ i < l.length) →
      (comboChangeSet nameDict i).map (fun p => (p.1, some p.2)) =
        changeSetAt nameDict i := by
  intro nameDict
  induction nameDict with
  | nil => intro _; rfl
  | cons kv rest ih =>
    intro h
    obtain ⟨l, hv, hi⟩ := h kv (List.mem_cons_self kv rest)
    have hget : l.get? i = some (l.get ⟨i, hi⟩) := List.get?_eq_get hi
    have ihr := ih (fun kv hkv => h kv (List.mem_cons_of_mem _ hkv))
    simp only [comboChangeSet, changeSetAt, List.filterMap_cons, List.map_cons, hv, hget,
      Option.map_some'] at ihr ⊢
    rw [ihr]

/-- **C1.** For every combo-mode parameter group (all of whose parameters
are list-valued) with experiment count `numExpts`: if every list has
length `numExpts`, expansion produces exactly `numExpts` change sets and
change set `i` maps every key of the group to that key's element at
index `i`; if some list's length differs from `numExpts` (and at least
one experiment is requested), expansion fails with the length-mismatch
error and produces no change sets. -/
theorem c1_combo_expansion {α : Type} (numExpts : Nat)
    (nameDict : List (String × PValue α))
    (hall : ∀ kv ∈ nameDict, PValue.isVlist kv.2 = true) :
    ((∀ kv ∈ nameDict, PValue.listLen kv.2 = some numExpts) →
      ∃ css, generateCombinedDicts numExpts nameDict = .ok css ∧
        css.length = numExpts ∧
        ∀ i, i < numExpts →
          css[i]? = some (comboChangeSet nameDict i) ∧
          (comboChangeSet nameDict i).map (fun p => (p.1, some p.2)) =
            changeSetAt nameDict i) ∧
    (0 < numExpts →
      (∃ kv ∈ nameDict, PValue.isVlist kv.2 = true ∧
        PValue.listLen kv.2 ≠ some numExpts) →
      generateCombinedDicts numExpts nameDict =
        .error "The length of values is inconsistent with the number of experiments.") := by
  constructor
  · intro hlen
    have hmm : lenMismatch numExpts nameDict = false := by
      simp only [lenMismatch, List.any_eq_false]
      intro kv hkv
      have h1 := hall kv hkv
      have h2 := hlen kv hkv
      cases hv : kv.2 with
      | scalar x => simp
      | vlist l =>
        rw [hv] at h2
        simp only [PValue.listLen, Option.some.injEq] at h2
        simp [h2]
    refine ⟨(List.range numExpts).map (comboChangeSet nameDict), ?_, by simp, ?_⟩
    · simp [generateCombinedDicts, hmm]
    · intro i hi
      constructor
      · rw [List.getElem?_map, List.getElem?_range hi]
        rfl
      · apply comboChangeSet_map_eq
        intro kv hkv
        have h1 := hall kv hkv
        have h2 := hlen kv hkv
        cases hv : kv.2 with
        | scalar x => rw [hv] at h1; simp [PValue.isVlist] at h1
        | vlist l =>
          rw [hv] at h2
          simp only [PValue.listLen, Option.some.injEq] at h2
          exact ⟨l, rfl, h2 ▸ hi⟩
  · rintro hpos ⟨kv, hmem, hvl, hne⟩
    have hmm : lenMismatch numExpts nameDict = true := by
      rw [lenMismatch, List.any_eq_true]
      refine ⟨kv, hmem, ?_⟩
      cases hv : kv.2 with
      | scalar x => rw [hv] at hvl; simp [PValue.isVlist] at hvl
      | vlist l =>
        rw [hv] at hne
        simp only [PValue.listLen, Ne, Option.some.injEq] at hne
        simp [hne]
    simp [generateCombinedDicts, hmm, hpos]

/-- Witness for `c1_combo_expansion` at the spec's combo scenario
(values rendered as integers) and at a group whose list is shorter than
the experiment count. -/
theorem c1_combo_expansion_witness :
    (∃ css, generateCombinedDicts 2
        [("DT_THERM", PValue.vlist [(3600 : Int), 108000]),
         ("DIABATIC_FIRST", PValue.vlist [0, 0])] = .ok css ∧
      css.length = 2 ∧
      ∀ i, i < 2 →
        css[i]? = some (comboChangeSet
          [("DT_THERM", PValue.vlist [(3600 : Int), 108000]),
           ("DIABATIC_FIRST", PValue.vlist [0, 0])] i) ∧
        (comboChangeSet
          [("DT_THERM", PValue.vlist [(3600 : Int), 108000]),
           ("DIABATIC_FIRST", PValue.vlist [0, 0])] i).map
            (fun p => (p.1, some p.2)) =
          changeSetAt
            [("DT_THERM", PValue.vlist [(3600 : Int), 108000]),
             ("DIABATIC_FIRST", PValue.vlist [0, 0])] i) ∧
    generateCombinedDicts 2 [("a", PValue.vlist [(1 : Int)])] =
      .error "The length of values is inconsistent with the number of experiments." :=
  ⟨(c1_combo_expansion 2
      [("DT_THERM", PValue.vlist [(3600 : Int), 108000]),
       ("DIABATIC_FIRST", PValue.vlist [0, 0])] (by decide)).1 (by decide),
   (c1_combo_expansion 2 [("a", PValue.vlist [(1 : Int)])] (by decide)).2
     (by decide) ⟨("a", PValue.vlist [(1 : Int)]), by decide, by decide, by decide⟩⟩

/-- **C2.** For every individual-mode parameter group, the expander
emits exactly (sum of the list lengths, plus one per scalar parameter)
change sets, and every emitted change set has exactly one key - a
parameter name of the group - bound to one element of that parameter's
list (or to the scalar value). -/
theorem c2_individual_expansion {α : Type} (nameDict : List (String × PValue α)) :
    (generateIndividualDicts nameDict).length =
      (nameDict.map fun kv => indivWeight kv.2).sum ∧
    ∀ cs ∈ generateIndividualDicts nameDict,
      ∃ k v, cs = [(k, v)] ∧ ∃ src, (k, src) ∈ nameDict ∧
        (src = PValue.scalar v ∨ ∃ l, src = PValue.vlist l ∧ v ∈ l) := by
  constructor
  · induction nameDict with
    | nil => rfl
    | cons kv rest ih =>
      cases hv : kv.2 with
      | scalar x =>
        simp only [generateIndividualDicts, List.flatMap_cons, hv, List.length_append,
          List.map_cons, List.sum_cons, indivWeight] at ih ⊢
        simp [ih]
      | vlist vs =>
        simp only [generateIndividualDicts, List.flatMap_cons, hv, List.length_append,
          List.map_cons, List.sum_cons, indivWeight, List.length_map] at ih ⊢
        simp [ih]
  · intro cs hcs
    rw [generateIndividualDicts, List.mem_flatMap] at hcs
    obtain ⟨kv, hkv, hin⟩ := hcs
    cases hv : kv.2 with
    | scalar x =>
      rw [hv] at hin
      simp only [List.mem_singleton] at hin
      subst hin
      exact ⟨kv.1, x, rfl, kv.2, by simpa using hkv, Or.inl hv⟩
    | vlist vs =>
      rw [hv] at hin
      rw [List.mem_map] at hin
      obtain ⟨x, hx, hcs⟩ := hin
      subst hcs
      exact ⟨kv.1, x, rfl, kv.2, by simpa using hkv, Or.inr ⟨vs, hv, hx⟩⟩

/-- Witness for `c2_individual_expansion` at the spec's individual-mode
scenario (values rendered as integers): 4 change sets, and the first is
the single-pair set for the first list element. -/
theorem c2_individual_expansion_witness :
    (generateIndividualDicts
        [("ahmax", PValue.vlist [(2 : Int), 3]), ("r_snw", PValue.vlist [1, 2])]).length =
      ([("ahmax", PValue.vlist [(2 : Int), 3]), ("r_snw", PValue.vlist [1, 2])].map
        fun kv => indivWeight kv.2).sum ∧
    ∃ k v, [(("ahmax" : String), (2 : Int))] = [(k, v)] ∧
      ∃ src, (k, src) ∈ [("ahmax", PValue.vlist [(2 : Int), 3]), ("r_snw", PValue.vlist [1, 2])] ∧
        (src = PValue.scalar v ∨ ∃ l, src = PValue.vlist l ∧ v ∈ l) :=
  ⟨(c2_individual_expansion
      [("ahmax", PValue.vlist [(2 : Int), 3]), ("r_snw", PValue.vlist [1, 2])]).1,
   (c2_individual_expansion
      [("ahmax", PValue.vlist [(2 : Int), 3]), ("r_snw", PValue.vlist [1, 2])]).2
     [("ahmax", (2 : Int))] (by decide)⟩

/-- The externally observable actions of `PerturbExperiment.setup_expts`
(`Expts_manager.setup_expts` with `tag_model == "cb"` behaves
identically): cloning the experiment directory, applying the parameter
changes to the current file, the diag-table/metadata/jobname update
block, and the PBS submission block. -/
inductive ExptAction where
  | clone
  | applyParams
  | metadataUpdate
  | submitRun
  deriving DecidableEq

/-- One action performed while processing one experiment index during
one (group, file) unit; `unitCount` is the value of the `tmp_count`
barrier counter at that moment. -/
structure ExptEvent where
  unitCount : Nat
  exptIdx : Nat
  action : ExptAction
  deriving DecidableEq

/-- The non-clone actions of one `setup_expts` loop iteration, in
source order: the metadata/jobname block runs when
`tmp_count == group_count`, the per-file parameter update always runs,
and the PBS submission block runs when `tmp_count == group_count`. -/
def tailEvs (tmpCount groupCount i : Nat) : List ExptEvent :=
  (if tmpCount = groupCount then [⟨tmpCount, i, .metadataUpdate⟩] else []) ++
    ⟨tmpCount, i, .applyParams⟩ ::
      (if tmpCount = groupCount then [⟨tmpCount, i, .submitRun⟩] else [])

/-- One iteration of the `setup_expts` loop for experiment index `i`.
The filesystem is modelled per experiment index: `dirs i = true` means
the experiment directory of index `i` exists (experiment paths of
distinct indices are distinct).  Mirrors the source: an existing path is
never cloned; an absent path is cloned only when `tmp_count == 1`, which
makes the path exist. -/
def processExptIndex (tmpCount groupCount i : Nat) (dirs : Nat → Bool) :
    (Nat → Bool) × List ExptEvent :=
  if dirs i then (dirs, tailEvs tmpCount groupCount i)
  else if tmpCount = 1 then
    ((fun j => if j = i then true else dirs j),
      ⟨tmpCount, i, .clone⟩ :: tailEvs tmpCount groupCount i)
  else (dirs, tailEvs tmpCount groupCount i)

/-- The `for i, param_dict in enumerate(...)` loop of `setup_expts`
over a list of experiment indices. -/
def processIndices (tmpCount groupCount : Nat) (idxs : List Nat) (dirs : Nat → Bool) :
    (Nat → Bool) × List ExptEvent :=
  match idxs with
  | [] => (dirs, [])
  | i :: rest =>
    let r := processExptIndex tmpCount groupCount i dirs
    let r2 := processIndices tmpCount groupCount rest r.1
    (r2.1, r.2 ++ r2.2)

/-- `[s, s+1, ..., s+n-1]`. -/
def idxList (s n : Nat) : List Nat :=
  match n with
  | 0 => []
  | n + 1 => s :: idxList (s + 1) n

/-- One (group, file) unit of a cross-file block: a full `setup_expts`
call over all experiment indices, at barrier count `tmpCount`. -/
def processUnit (tmpCount groupCount numExpts : Nat) (dirs : Nat → Bool) :
    (Nat → Bool) × List ExptEvent :=
  processIndices tmpCount groupCount (idxList 0 numExpts) dirs

/-- Driver over the units of a block, in order; mirrors
`_process_params_cross_files` incrementing `tmp_count` once per
(group, file) unit before calling `setup_expts`. -/
def processUnits (groupCount numExpts : Nat) (units : List Nat) (dirs : Nat → Bool) :
    (Nat → Bool) × List ExptEvent :=
  match units with
  | [] => (dirs, [])
  | u :: rest =>
    let r := processUnit u groupCount numExpts dirs
    let r2 := processUnits groupCount numExpts rest r.1
    (r2.1, r.2 ++ r2.2)

/-- One whole cross-file block in which every (group, file) unit
contributes change sets: the barrier runs through counts
`1, ..., groupCount` and `group_count` was precomputed to `groupCount`
by `_count_nested_groups`. -/
def processBlock (groupCount numExpts : Nat) (dirs : Nat → Bool) :
    (Nat → Bool) × List ExptEvent :=
  processUnits groupCount numExpts (idxList 1 groupCount) dirs

theorem mem_tailEvs {t g i : Nat} {e : ExptEvent} (he : e ∈ tailEvs t g i) :
    e.unitCount = t ∧ e.exptIdx = i ∧ e.action ≠ ExptAction.clone ∧
      ((e.action = ExptAction.metadataUpdate ∨ e.action = ExptAction.submitRun) → t = g) := by
  by_cases htg : t = g <;> simp only [tailEvs, htg, if_true, if_neg, List.mem_append,
    List.mem_cons, List.mem_singleton, List.not_mem_nil, or_false, false_or,
    if_pos] at he
  · rcases he with he | he | he <;> subst he <;> simp [htg]
  · rcases he with he | he
    · exact absurd he (by simp)
    · rcases he with he | he
      · subst he; simp
      · exact absurd he (by simp)

theorem processExptIndex_fst_mono {t g i j : Nat} {dirs : Nat → Bool}
    (h : dirs j = true) : (processExptIndex t g i dirs).1 j = true := by
  unfold processExptIndex
  split
  · exact h
  · split
    · by_cases hji : j = i <;> simp [hji, h]
    · exact h

theorem processExptIndex_events {t g i : Nat} {dirs : Nat → Bool} {e : ExptEvent}
    (he : e ∈ (processExptIndex t g i dirs).2) :
    e.unitCount = t ∧
      ((e.action = ExptAction.metadataUpdate ∨ e.action = ExptAction.submitRun) → t = g) ∧
      (e.action = ExptAction.clone → t = 1 ∧ dirs i = false ∧ e.exptIdx = i) := by
  unfold processExptIndex at he
  split at he
  · have h := mem_tailEvs he
    exact ⟨h.1, h.2.2.2, fun hc => absurd hc h.2.2.1⟩
  · next hdirs =>
    split at he
    · next ht =>
      rcases List.mem_cons.mp he with he | he
      · subst he
        exact ⟨rfl, by simp, fun _ => ⟨ht, by simpa using hdirs, rfl⟩⟩
      · have h := mem_tailEvs he
        exact ⟨h.1, h.2.2.2, fun hc => absurd hc h.2.2.1⟩
    · have h := mem_tailEvs he
      exact ⟨h.1, h.2.2.2, fun hc => absurd hc h.2.2.1⟩

theorem processIndices_events {t g : Nat} :
    ∀ (idxs : List Nat) (dirs : Nat → Bool) {e : ExptEvent},
      e ∈ (processIndices t g idxs dirs).2 →
      e.unitCount = t ∧
        ((e.action = ExptAction.metadataUpdate ∨ e.action = ExptAction.submitRun) → t = g) ∧
        (e.action = ExptAction.clone → t = 1) := by
  intro idxs
  induction idxs with
  | nil => intro dirs e he; simp [processIndices] at he
  | cons i rest ih =>
    intro dirs e he
    simp only [processIndices, List.mem_append] at he
    rcases he with he | he
    · have h := processExptIndex_events he
      exact ⟨h.1, h.2.1, fun hc => (h.2.2 hc).1⟩
    · exact ih _ he

theorem processIndices_fst_mono {t g : Nat} :
    ∀ (idxs : List Nat) (dirs : Nat → Bool) (j : Nat),
      dirs j = true → (processIndices t g idxs dirs).1 j = true := by
  intro idxs
  induction idxs with
  | nil => intro dirs j h; simpa [processIndices] using h
  | cons i rest ih =>
    intro dirs j h
    simp only [processIndices]
    exact ih _ _ (processExptIndex_fst_mono h)

theorem processIndices_establishes {g : Nat} :
    ∀ (idxs : List Nat) (dirs : Nat → Bool) (i : Nat),
      i ∈ idxs → (processIndices 1 g idxs dirs).1 i = true := by
  intro idxs
  induction idxs with
  | nil => intro dirs i h; simp at h
  | cons j rest ih =>
    intro dirs i h
    rcases List.mem_cons.mp h with h | h
    · subst h
      simp only [processIndices]
      apply processIndices_fst_mono
      unfold processExptIndex
      split
      · next hd => exact hd
      · simp
    · exact ih _ _ h

theorem countP_tailEvs_clone (t g i i' : Nat) :
    (tailEvs t g i).countP
        (fun e => decide (e.action = ExptAction.clone ∧ e.exptIdx = i')) = 0 := by
  rw [List.countP_eq_zero]
  intro e he
  have h := mem_tailEvs he
  simp only [decide_eq_true_eq, not_and]
  intro hc
  exact absurd hc h.2.2.1

theorem processIndices_clone_count (g : Nat) :
    ∀ (n s : Nat) (dirs : Nat → Bool) (i : Nat),
      (processIndices 1 g (idxList s n) dirs).2.countP
          (fun e => decide (e.action = ExptAction.clone ∧ e.exptIdx = i)) =
        if s ≤ i ∧ i < s + n ∧ dirs i = false then 1 else 0 := by
  intro n
  induction n with
  | zero =>
    intro s dirs i
    rw [if_neg (by rintro ⟨h1, h2, _⟩; omega)]
    simp [idxList, processIndices]
  | succ n ih =>
    intro s dirs i
    simp only [idxList, processIndices, List.countP_append]
    by_cases hds : dirs s = true
    · have hpe : processExptIndex 1 g s dirs = (dirs, tailEvs 1 g s) := by
        unfold processExptIndex
        rw [if_pos hds]
      rw [hpe]
      simp only [countP_tailEvs_clone, Nat.zero_add]
      rw [ih]
      by_cases hdi : dirs i = false
      · have hne : i ≠ s := by
          intro h
          rw [h, hds] at hdi
          exact Bool.noConfusion hdi
        simp only [hdi, and_true]
        split_ifs <;> omega
      · have hdt : dirs i = true := by simpa using hdi
        simp [hdt]
    · have hdf : dirs s = false := by simpa using hds
      have hpe : processExptIndex 1 g s dirs =
          ((fun j => if j = s then true else dirs j),
            ⟨1, s, ExptAction.clone⟩ :: tailEvs 1 g s) := by
        unfold processExptIndex
        rw [if_neg hds, if_pos rfl]
      rw [hpe]
      simp only [List.countP_cons, countP_tailEvs_clone, Nat.zero_add, decide_eq_true_eq,
        eq_self_iff_true, true_and]
      rw [ih]
      by_cases his : s = i
      · subst his
        rw [if_pos rfl, if_neg (by rintro ⟨hc, _⟩; omega)]
        rw [if_pos ⟨le_refl s, by omega, hdf⟩]
      · rw [if_neg his]
        have hdirs' : (if i = s then true else dirs i) = dirs i :=
          if_neg (fun h => his h.symm)
        rw [hdirs']
        by_cases hdi : dirs i = false
        · simp only [hdi, and_true]
          split_ifs <;> omega
        · have hdt : dirs i = true := by simpa using hdi
          simp [hdt]

theorem mem_idxList : ∀ (n s u : Nat), u ∈ idxList s n ↔ s ≤ u ∧ u < s + n := by
  intro n
  induction n with
  | zero => intro s u; simp [idxList]
  | succ n ih =>
    intro s u
    simp only [idxList, List.mem_cons, ih]
    omega

theorem processUnits_events {g N : Nat} :
    ∀ (units : List Nat) (dirs : Nat → Bool) {e : ExptEvent},
      e ∈ (processUnits g N units dirs).2 →
      ∃ u ∈ units, e.unitCount = u ∧
        ((e.action = ExptAction.metadataUpdate ∨ e.action = ExptAction.submitRun) → u = g) ∧
        (e.action = ExptAction.clone → u = 1) := by
  intro units
  induction units with
  | nil => intro dirs e he; simp [processUnits] at he
  | cons u rest ih =>
    intro dirs e he
    simp only [processUnits, processUnit, List.mem_append] at he
    rcases he with he | he
    · exact ⟨u, List.mem_cons_self u rest, processIndices_events _ _ he⟩
    · obtain ⟨u', hu', h⟩ := ih _ he
      exact ⟨u', List.mem_cons_of_mem _ hu', h⟩

theorem processUnits_clone_count_zero {g N : Nat} :
    ∀ (units : List Nat) (dirs : Nat → Bool) (i : Nat), (∀ u ∈ units, u ≠ 1) →
      (processUnits g N units dirs).2.countP
        (fun e => decide (e.action = ExptAction.clone ∧ e.exptIdx = i)) = 0 := by
  intro units dirs i hu
  rw [List.countP_eq_zero]
  intro e he
  obtain ⟨u, humem, h1, _, h3⟩ := processUnits_events _ _ he
  simp only [decide_eq_true_eq, not_and]
  intro hc
  exact absurd (h3 hc) (hu u humem)

theorem processUnits_fst_mono {g N : Nat} :
    ∀ (units : List Nat) (dirs : Nat → Bool) (j : Nat),
      dirs j = true → (processUnits g N units dirs).1 j = true := by
  intro units
  induction units with
  | nil => intro dirs j h; simpa [processUnits] using h
  | cons u rest ih =>
    intro dirs j h
    simp only [processUnits, processUnit]
    exact ih _ _ (processIndices_fst_mono _ _ _ h)

/-- **C3.** Over a whole cross-file block in which every (group, file)
unit contributes change sets: every clone happens at barrier count `1`
(so no later unit ever clones); each experiment index whose directory is
initially absent is cloned exactly once and each initially existing
index is never cloned; and after the block every experiment directory
exists (so every unit after the first finds the path existing). -/
theorem c3_clone_once_per_index (groupCount numExpts : Nat) (dirs0 : Nat → Bool)
    (hg : 0 < groupCount) :
    (∀ e ∈ (processBlock groupCount numExpts dirs0).2,
        e.action = ExptAction.clone → e.unitCount = 1) ∧
    (∀ i, i < numExpts →
      (processBlock groupCount numExpts dirs0).2.countP
          (fun e => decide (e.action = ExptAction.clone ∧ e.exptIdx = i)) =
        if dirs0 i then 0 else 1) ∧
    (∀ i, i < numExpts → (processBlock groupCount numExpts dirs0).1 i = true) := by
  obtain ⟨g', rfl⟩ : ∃ g', groupCount = g' + 1 := ⟨groupCount - 1, by omega⟩
  refine ⟨?_, ?_, ?_⟩
  · intro e he hc
    obtain ⟨u, hu, h1, _, h3⟩ := processUnits_events _ _ he
    rw [h1, h3 hc]
  · intro i hi
    show ((processUnits (g' + 1) numExpts (idxList 1 (g' + 1)) dirs0).2.countP _) = _
    simp only [idxList, processUnits, processUnit, List.countP_append]
    rw [processIndices_clone_count (g' + 1) numExpts 0 dirs0 i]
    rw [processUnits_clone_count_zero _ _ _
      (fun u hu => by rw [mem_idxList] at hu; omega)]
    by_cases hdi : dirs0 i = true
    · simp [hdi]
    · have hdf : dirs0 i = false := by simpa using hdi
      rw [if_pos ⟨Nat.zero_le i, by omega, hdf⟩]
      simp [hdf]
  · intro i hi
    show (processUnits (g' + 1) numExpts (idxList 1 (g' + 1)) dirs0).1 i = true
    simp only [idxList, processUnits, processUnit]
    apply processUnits_fst_mono
    exact processIndices_establishes _ _ _ ((mem_idxList numExpts 0 i).mpr ⟨Nat.zero_le i, by omega⟩)

/-- Witness for `c3_clone_once_per_index`: a block of 3 (group, file)
units and 2 experiments starting from an empty filesystem. -/
theorem c3_clone_once_per_index_witness :
    0 < 3 ∧
    ((∀ e ∈ (processBlock 3 2 (fun _ => false)).2,
        e.action = ExptAction.clone → e.unitCount = 1) ∧
    (∀ i, i < 2 →
      (processBlock 3 2 (fun _ => false)).2.countP
          (fun e => decide (e.action = ExptAction.clone ∧ e.exptIdx = i)) =
        if (fun _ => false : Nat → Bool) i then 0 else 1) ∧
    (∀ i, i < 2 → (processBlock 3 2 (fun _ => false)).1 i = true)) :=
  ⟨by decide, c3_clone_once_per_index 3 2 (fun _ => false) (by decide)⟩

/-- **C5 counterexample.** In a cross-file block with `group_count = 2`
and one experiment, starting from an absent directory, the clone (the
directory-materialization action) runs at barrier count `1`, an
iteration whose running count is strictly below the precomputed total
`2` - contradicting the claim that materialization happens only when
the count equals the total. -/
theorem c5_counterexample_materialize_at_first_unit :
    ∃ e ∈ (processBlock 2 1 (fun _ => false)).2,
      (e.action = ExptAction.clone ∨ e.action = ExptAction.metadataUpdate ∨
        e.action = ExptAction.submitRun) ∧ e.unitCount ≠ 2 := by decide

/-- **C5 (amended).** Within a cross-file block, the metadata/jobname
update and the job submission run only on iterations whose barrier
count equals the precomputed total, while directory materialization
(the clone) runs only on iterations whose barrier count is `1`. -/
theorem c5_barrier_gating_amended (groupCount numExpts : Nat) (dirs0 : Nat → Bool) :
    ∀ e ∈ (processBlock groupCount numExpts dirs0).2,
      ((e.action = ExptAction.metadataUpdate ∨ e.action = ExptAction.submitRun) →
        e.unitCount = groupCount) ∧
      (e.action = ExptAction.clone → e.unitCount = 1) := by
  intro e he
  obtain ⟨u, _, h1, h2, h3⟩ := processUnits_events _ _ he
  exact ⟨fun ha => by rw [h1, h2 ha], fun ha => by rw [h1, h3 ha]⟩

/-- Witness for `c5_barrier_gating_amended` at a concrete block and the
submission event of its final unit. -/
theorem c5_barrier_gating_amended_witness :
    (ExptEvent.mk 2 0 ExptAction.submitRun ∈ (processBlock 2 1 (fun _ => false)).2) ∧
    (((ExptEvent.mk 2 0 ExptAction.submitRun).action = ExptAction.metadataUpdate ∨
        (ExptEvent.mk 2 0 ExptAction.submitRun).action = ExptAction.submitRun) →
      (ExptEvent.mk 2 0 ExptAction.submitRun).unitCount = 2) ∧
    ((ExptEvent.mk 2 0 ExptAction.submitRun).action = ExptAction.clone →
      (ExptEvent.mk 2 0 ExptAction.submitRun).unitCount = 1) :=
  ⟨by decide,
    (c5_barrier_gating_amended 2 1 (fun _ => false) (ExptEvent.mk 2 0 ExptAction.submitRun)
      (by decide)).1,
    (c5_barrier_gating_amended 2 1 (fun _ => false) (ExptEvent.mk 2 0 ExptAction.submitRun)
      (by decide)).2⟩

/-- A parsed PBS job record as consumed by `_check_duplicated_jobs`:
its `Error_Path` attribute, modelled by its `"/"`-separated segment
list (the first thing `_extract_current_and_parent_path` does is
`tmp_path.split("/")`), and its `job_state` attribute. -/
structure JobRecord where
  errorPath : List String
  jobState : String
  deriving DecidableEq

/-- `folder_path = "/" + "/".join(tmp_path.split("/")[1:-1])` of
`PBSJobManager._extract_current_and_parent_path`, on segment lists:
drop the leading segment and the final one. -/
def folderOf (segs : List String) : List String := (segs.drop 1).dropLast

/-- `parent_path = "/" + "/".join(tmp_path.split("/")[1:-2])`, on
segment lists: drop the leading segment and the final two. -/
def parentOf (segs : List String) : List String := (segs.drop 1).dropLast.dropLast

/-- Add `folder` to the bucket of `parent`, creating the bucket at the
end when `parent` is new - the
`if parent_path not in parent_paths: ...` / `append` sequence of
`_check_duplicated_jobs`. -/
def addToBucket (groups : List (List String × List (List String)))
    (parent folder : List String) : List (List String × List (List String)) :=
  match groups with
  | [] => [(parent, [folder])]
  | (p, fs) :: rest =>
    if p = parent then (p, fs ++ [folder]) :: rest
    else (p, fs) :: addToBucket rest parent folder

/-- One grouping step of `_check_duplicated_jobs`: records in the
terminal states `"F"`/`"S"` are skipped, every other record contributes
its folder path to its parent path's bucket. -/
def dedupStep (groups : List (List String × List (List String))) (r : JobRecord) :
    List (List String × List (List String)) :=
  if r.jobState = "F" ∨ r.jobState = "S" then groups
  else addToBucket groups (parentOf r.errorPath) (folderOf r.errorPath)

/-- The `parent_paths` dictionary built by `_check_duplicated_jobs`. -/
def buildParentPaths (jobs : List JobRecord) :
    List (List String × List (List String)) :=
  jobs.foldl dedupStep []

/-- Embedding of `PBSJobManager._check_duplicated_jobs` (equivalently
`Expts_manager._check_duplicated_jobs`): a duplicate is reported iff
some parent bucket contains the target experiment path. -/
def checkDuplicatedJobs (target : List String) (jobs : List JobRecord) : Bool :=
  (buildParentPaths jobs).any fun g => decide (target ∈ g.2)

theorem parentOf_eq_dropLast_folderOf (segs : List String) :
    parentOf segs = (folderOf segs).dropLast := rfl

theorem any_addToBucket (target : List String) :
    ∀ (groups : List (List String × List (List String))) (parent folder : List String),
      ((addToBucket groups parent folder).any fun g => decide (target ∈ g.2)) = true ↔
        (((groups.any fun g => decide (target ∈ g.2)) = true) ∨ folder = target) := by
  intro groups
  induction groups with
  | nil =>
    intro parent folder
    simp [addToBucket, eq_comm]
  | cons g rest ih =>
    intro parent folder
    obtain ⟨p, fs⟩ := g
    rw [addToBucket]
    by_cases hp : p = parent
    · rw [if_pos hp]
      simp only [List.any_cons, Bool.or_eq_true, decide_eq_true_eq, List.mem_append,
        List.mem_singleton]
      constructor
      · rintro ((h | h) | h)
        · exact Or.inl (Or.inl h)
        · exact Or.inr h.symm
        · exact Or.inl (Or.inr h)
      · rintro ((h | h) | h)
        · exact Or.inl (Or.inl h)
        · exact Or.inr h
        · exact Or.inl (Or.inr h.symm)
    · rw [if_neg hp]
      simp only [List.any_cons, Bool.or_eq_true, decide_eq_true_eq] at ih ⊢
      rw [ih]
      tauto

theorem any_buildParentPaths (target : List String) :
    ∀ (jobs : List JobRecord) (groups : List (List String × List (List String))),
      ((jobs.foldl dedupStep groups).any fun g => decide (target ∈ g.2)) = true ↔
        (((groups.any fun g => decide (target ∈ g.2)) = true) ∨
          ∃ r ∈ jobs, (r.jobState ≠ "F" ∧ r.jobState ≠ "S") ∧
            folderOf r.errorPath = target) := by
  intro jobs
  induction jobs with
  | nil => intro groups; simp
  | cons r rest ih =>
    intro groups
    rw [List.foldl_cons, ih]
    by_cases hterm : r.jobState = "F" ∨ r.jobState = "S"
    · rw [dedupStep, if_pos hterm]
      constructor
      · rintro (h | ⟨r', hr', h2⟩)
        · exact Or.inl h
        · exact Or.inr ⟨r', List.mem_cons_of_mem _ hr', h2⟩
      · rintro (h | ⟨r', hr', hact, hfold⟩)
        · exact Or.inl h
        · rcases List.mem_cons.mp hr' with rfl | hr'
          · rcases hterm with h | h
            · exact absurd h hact.1
            · exact absurd h hact.2
          · exact Or.inr ⟨r', hr', hact, hfold⟩
    · rw [dedupStep, if_neg hterm, any_addToBucket]
      obtain ⟨hF, hS⟩ := not_or.mp hterm
      constructor
      · rintro ((h | h) | h)
        · exact Or.inl h
        · exact Or.inr ⟨r, List.mem_cons_self r rest, ⟨hF, hS⟩, h⟩
        · obtain ⟨r', hr', h2⟩ := h
          exact Or.inr ⟨r', List.mem_cons_of_mem _ hr', h2⟩
      · rintro (h | ⟨r', hr', hact, hfold⟩)
        · exact Or.inl (Or.inl h)
        · rcases List.mem_cons.mp hr' with rfl | hr'
          · exact Or.inl (Or.inr hfold)
          · exact Or.inr ⟨r', hr', hact, hfold⟩

/-- **C4.** The duplicate check returns `true` iff some record whose
state is outside the terminal set `{"F", "S"}` has an error path whose
derived experiment folder equals the target path - and then that
record's derived parent folder is necessarily the target's own parent.
Records in state `"F"` or `"S"`, and records whose folder (hence
parent) differs from the target's, never cause a duplicate verdict. -/
theorem c4_duplicate_detection (target : List String) (jobs : List JobRecord) :
    checkDuplicatedJobs target jobs = true ↔
      ∃ r ∈ jobs, (r.jobState ≠ "F" ∧ r.jobState ≠ "S") ∧
        folderOf r.errorPath = target ∧ parentOf r.errorPath = target.dropLast := by
  rw [checkDuplicatedJobs, buildParentPaths, any_buildParentPaths]
  simp only [List.any_nil, Bool.false_eq_true, false_or]
  constructor
  · rintro ⟨r, hr, hact, hfold⟩
    exact ⟨r, hr, hact, hfold, by rw [parentOf_eq_dropLast_folderOf, hfold]⟩
  · rintro ⟨r, hr, hact, hfold, _⟩
    exact ⟨r, hr, hact, hfold⟩

/-- Witness for `c4_duplicate_detection`: a running job (`state "R"`)
whose error path lies in the target directory triggers a duplicate,
while the same path in finished state `"F"` does not. -/
theorem c4_duplicate_detection_witness :
    checkDuplicatedJobs ["g", "data", "exp1"]
        [⟨["", "g", "data", "exp1", "job.e1"], "R"⟩] = true ∧
      checkDuplicatedJobs ["g", "data", "exp1"]
        [⟨["", "g", "data", "exp1", "job.e1"], "F"⟩] ≠ true :=
  ⟨(c4_duplicate_detection ["g", "data", "exp1"]
      [⟨["", "g", "data", "exp1", "job.e1"], "R"⟩]).mpr (by decide),
   fun h => absurd ((c4_duplicate_detection ["g", "data", "exp1"]
      [⟨["", "g", "data", "exp1", "job.e1"], "F"⟩]).mp h) (by decide)⟩

/-- The fixed glob suffix `output[0-9][0-9][0-9]*` matched under the
experiment's `archive` subdirectory: the entry name is `output`, then
three ASCII digits, then anything. -/
def matchesOutputPattern (name : List Char) : Bool :=
  match name with
  | 'o' :: 'u' :: 't' :: 'p' :: 'u' :: 't' :: d1 :: d2 :: d3 :: _ =>
    d1.isDigit && d2.isDigit && d3.isDigit
  | _ => false

/-- Embedding of `PBSJobManager._start_experiment_runs`, with `archive`
the entry names under `<path>/archive`.  Returns `some n` when the
submission command `payu run -n n` is issued and `none` when no
submission happens: nothing is submitted for a duplicated job, and
otherwise `newruns = nruns - doneruns` is submitted only when it is
positive, `doneruns` being the number of archive entries matching the
output pattern. -/
def startExperimentRuns (nruns : Int) (duplicated : Bool)
    (archive : List (List Char)) : Option Int :=
  if duplicated then none
  else
    let doneruns : Int := (archive.filter matchesOutputPattern).length
    let newruns := nruns - doneruns
    if newruns > 0 then some newruns else none

/-- **C8.** For every configured total run count and archive contents
(no duplicate detected), the number of new runs requested at submission
is the configured total minus the count of archive entries matching the
three-digit output pattern, and no submission command is issued when
that difference is not positive. -/
theorem c8_new_run_count (nruns : Int) (archive : List (List Char)) :
    (0 < nruns - ((archive.filter matchesOutputPattern).length : Int) →
      startExperimentRuns nruns false archive =
        some (nruns - ((archive.filter matchesOutputPattern).length : Int))) ∧
    (nruns - ((archive.filter matchesOutputPattern).length : Int) ≤ 0 →
      startExperimentRuns nruns false archive = none) := by
  constructor
  · intro h
    simp only [startExperimentRuns, if_false, Bool.false_eq_true]
    rw [if_pos h]
  · intro h
    simp only [startExperimentRuns, if_false, Bool.false_eq_true]
    rw [if_neg (not_lt.mpr h)]

/-- Witness for `c8_new_run_count`: with a configured total of 5 and an
archive holding `output000` and `output001` (plus two non-matching
entries), 3 new runs are requested; with a configured total of 1 the
submission is skipped. -/
theorem c8_new_run_count_witness :
    startExperimentRuns 5 false
        ["output000".data, "output001".data, "restart000".data, "outputs".data] =
      some 3 ∧
    startExperimentRuns 1 false
        ["output000".data, "output001".data, "restart000".data, "outputs".data] =
      none :=
  ⟨((c8_new_run_count 5
      ["output000".data, "output001".data, "restart000".data, "outputs".data]).1
      (by decide)).trans (by decide),
   (c8_new_run_count 1
      ["output000".data, "output001".data, "restart000".data, "outputs".data]).2
      (by decide)⟩

/-- The patch-group construction loop of
`f90nmlUpdater.update_nml_params` (equivalently
`Expts_manager._update_nml_params`), generic in the two derived-value
functions: the key `"turning_angle"` with value `v` is replaced in
place by `"cosw" := cosF v` and `"sinw" := sinF v`; every other key
passes through unchanged, in iteration order. -/
def buildPatchGroup {α : Type} (cosF sinF : α → α) :
    List (String × α) → List (String × α)
  | [] => []
  | (k, v) :: rest =>
    if k = "turning_angle" then
      ("cosw", cosF v) :: ("sinw", sinF v) :: buildPatchGroup cosF sinF rest
    else (k, v) :: buildPatchGroup cosF sinF rest

/-- The one-group patch dict `{nml_group: {...}}` handed to
`f90nml.patch`. -/
def buildNmlPatch {α : Type} (cosF sinF : α → α) (nmlGroup : String)
    (paramDict : List (String × α)) : List (String × List (String × α)) :=
  [(nmlGroup, buildPatchGroup cosF sinF paramDict)]

theorem buildPatchGroup_no_turning_angle {α : Type} (cosF sinF : α → α) :
    ∀ pd : List (String × α),
      "turning_angle" ∉ (buildPatchGroup cosF sinF pd).map Prod.fst := by
  intro pd
  induction pd with
  | nil => simp [buildPatchGroup]
  | cons kv rest ih =>
    obtain ⟨k, v⟩ := kv
    rw [buildPatchGroup]
    by_cases hk : k = "turning_angle"
    · rw [if_pos hk]
      simp only [List.map_cons, List.mem_cons]
      rintro (h | h | h)
      · exact absurd h (by decide)
      · exact absurd h (by decide)
      · exact ih h
    · rw [if_neg hk]
      simp only [List.map_cons, List.mem_cons]
      rintro (h | h)
      · exact hk h.symm
      · exact ih h

theorem lookup_eq_none_of_keys {α : Type} (a : String) :
    ∀ l : List (String × α), a ∉ l.map Prod.fst → List.lookup a l = none := by
  intro l
  induction l with
  | nil => intro _; rfl
  | cons kv rest ih =>
    intro h
    obtain ⟨k, v⟩ := kv
    simp only [List.map_cons, List.mem_cons, not_or] at h
    have hbeq : (a == k) = false := by
      simp only [beq_eq_false_iff_ne, ne_eq]
      exact h.1
    simp only [List.lookup, hbeq]
    exact ih h.2

theorem lookup_buildPatchGroup_none {α : Type} (cosF sinF : α → α)
    (pd : List (String × α)) :
    List.lookup "turning_angle" (buildPatchGroup cosF sinF pd) = none :=
  lookup_eq_none_of_keys _ _ (buildPatchGroup_no_turning_angle cosF sinF pd)

theorem lookup_buildPatchGroup_derived {α : Type} (cosF sinF : α → α) :
    ∀ (pd : List (String × α)) (v : α),
      ("turning_angle", v) ∈ pd → (pd.map Prod.fst).Nodup →
      "cosw" ∉ pd.map Prod.fst → "sinw" ∉ pd.map Prod.fst →
      List.lookup "cosw" (buildPatchGroup cosF sinF pd) = some (cosF v) ∧
      List.lookup "sinw" (buildPatchGroup cosF sinF pd) = some (sinF v) := by
  intro pd
  induction pd with
  | nil => intro v hv _ _ _; simp at hv
  | cons kv rest ih =>
    intro v hv hnodup hcos hsin
    obtain ⟨k, w⟩ := kv
    simp only [List.map_cons, List.nodup_cons] at hnodup
    simp only [List.map_cons, List.mem_cons, not_or] at hcos hsin
    rw [buildPatchGroup]
    by_cases hk : k = "turning_angle"
    · rw [if_pos hk]
      have hvw : v = w := by
        rcases List.mem_cons.mp hv with h | h
        · exact congrArg Prod.snd h
        · exact absurd (by rw [hk]; exact List.mem_map.mpr ⟨_, h, rfl⟩) hnodup.1
      subst hvw
      constructor
      · simp [List.lookup]
      · simp [List.lookup]
    · rw [if_neg hk]
      have hv' : ("turning_angle", v) ∈ rest := by
        rcases List.mem_cons.mp hv with h | h
        · exact absurd (congrArg Prod.fst h).symm hk
        · exact h
      have hrec := ih v hv' hnodup.2 hcos.2 hsin.2
      have hbc : (("cosw" : String) == k) = false := by
        simp only [beq_eq_false_iff_ne, ne_eq]
        exact hcos.1
      have hbs : (("sinw" : String) == k) = false := by
        simp only [beq_eq_false_iff_ne, ne_eq]
        exact hsin.1
      constructor
      · simp only [List.lookup, hbc]
        exact hrec.1
      · simp only [List.lookup, hbs]
        exact hrec.2

theorem lookup_buildPatchGroup_passthrough {α : Type} (cosF sinF : α → α) :
    ∀ (pd : List (String × α)) (k : String) (w : α),
      (k, w) ∈ pd → k ≠ "turning_angle" → (pd.map Prod.fst).Nodup →
      "cosw" ∉ pd.map Prod.fst → "sinw" ∉ pd.map Prod.fst →
      List.lookup k (buildPatchGroup cosF sinF pd) = some w := by
  intro pd
  induction pd with
  | nil => intro k w hv _ _ _ _; simp at hv
  | cons kv rest ih =>
    intro k w hv hkta hnodup hcos hsin
    obtain ⟨k', w'⟩ := kv
    simp only [List.map_cons, List.nodup_cons] at hnodup
    simp only [List.map_cons, List.mem_cons, not_or] at hcos hsin
    have hkcos : k ≠ "cosw" := by
      intro he
      rcases List.mem_cons.mp hv with h | h
      · exact hcos.1 (he ▸ (congrArg Prod.fst h).symm).symm
      · exact hcos.2 (he ▸ List.mem_map.mpr ⟨_, h, rfl⟩)
    have hksin : k ≠ "sinw" := by
      intro he
      rcases List.mem_cons.mp hv with h | h
      · exact hsin.1 (he ▸ (congrArg Prod.fst h).symm).symm
      · exact hsin.2 (he ▸ List.mem_map.mpr ⟨_, h, rfl⟩)
    rw [buildPatchGroup]
    by_cases hk' : k' = "turning_angle"
    · rw [if_pos hk']
      have hv' : (k, w) ∈ rest := by
        rcases List.mem_cons.mp hv with h | h
        · exact absurd ((congrArg Prod.fst h).trans hk') hkta
        · exact h
      have hbc : (k == "cosw") = false := by
        simp only [beq_eq_false_iff_ne, ne_eq]; exact hkcos
      have hbs : (k == "sinw") = false := by
        simp only [beq_eq_false_iff_ne, ne_eq]; exact hksin
      simp only [List.lookup, hbc, hbs]
      exact ih k w hv' hkta hnodup.2 hcos.2 hsin.2
    · rw [if_neg hk']
      by_cases hkk : k = k'
      · have hww : w = w' := by
          rcases List.mem_cons.mp hv with h | h
          · exact congrArg Prod.snd h
          · exact absurd (hkk ▸ List.mem_map.mpr ⟨_, h, rfl⟩) hnodup.1
        subst hww hkk
        simp [List.lookup]
      · have hv' : (k, w) ∈ rest := by
          rcases List.mem_cons.mp hv with h | h
          · exact absurd (congrArg Prod.fst h) hkk
          · exact h
        have hb : (k == k') = false := by
          simp only [beq_eq_false_iff_ne, ne_eq]; exact hkk
        simp only [List.lookup, hb]
        exact ih k w hv' hkta hnodup.2 hcos.2 hsin.2

/-- **C9.** For every namelist change set containing `"turning_angle"`
with value `v` (keys unique, and not already containing the derived
keys), the patch handed to `f90nml.patch` consists of the single target
group, whose dict binds `"cosw"` to `cos(v*pi/180)` and `"sinw"` to
`sin(v*pi/180)`, does not bind `"turning_angle"`, and binds every other
key of the change set to its original value; for `v = 90` the derived
values are exactly `cos(pi/2) = 0` and `sin(pi/2) = 1`. -/
theorem c9_turning_angle_transform (nmlGroup : String) (v : ℝ)
    (paramDict : List (String × ℝ))
    (hmem : ("turning_angle", v) ∈ paramDict)
    (hnodup : (paramDict.map Prod.fst).Nodup)
    (hcos : "cosw" ∉ paramDict.map Prod.fst)
    (hsin : "sinw" ∉ paramDict.map Prod.fst) :
    buildNmlPatch (fun x => Real.cos (x * Real.pi / 180))
        (fun x => Real.sin (x * Real.pi / 180)) nmlGroup paramDict =
      [(nmlGroup, buildPatchGroup (fun x => Real.cos (x * Real.pi / 180))
        (fun x => Real.sin (x * Real.pi / 180)) paramDict)] ∧
    List.lookup "cosw" (buildPatchGroup (fun x => Real.cos (x * Real.pi / 180))
        (fun x => Real.sin (x * Real.pi / 180)) paramDict) =
      some (Real.cos (v * Real.pi / 180)) ∧
    List.lookup "sinw" (buildPatchGroup (fun x => Real.cos (x * Real.pi / 180))
        (fun x => Real.sin (x * Real.pi / 180)) paramDict) =
      some (Real.sin (v * Real.pi / 180)) ∧
    List.lookup "turning_angle" (buildPatchGroup (fun x => Real.cos (x * Real.pi / 180))
        (fun x => Real.sin (x * Real.pi / 180)) paramDict) = none ∧
    (∀ k w, (k, w) ∈ paramDict → k ≠ "turning_angle" →
      List.lookup k (buildPatchGroup (fun x => Real.cos (x * Real.pi / 180))
        (fun x => Real.sin (x * Real.pi / 180)) paramDict) = some w) ∧
    (v = 90 → Real.cos (v * Real.pi / 180) = 0 ∧ Real.sin (v * Real.pi / 180) = 1) := by
  refine ⟨rfl, ?_, ?_, lookup_buildPatchGroup_none _ _ _, ?_, ?_⟩
  · exact (lookup_buildPatchGroup_derived _ _ paramDict v hmem hnodup hcos hsin).1
  · exact (lookup_buildPatchGroup_derived _ _ paramDict v hmem hnodup hcos hsin).2
  · intro k w hkw hk
    exact lookup_buildPatchGroup_passthrough _ _ paramDict k w hkw hk hnodup hcos hsin
  · intro h90
    subst h90
    have harg : (90 : ℝ) * Real.pi / 180 = Real.pi / 2 := by ring
    rw [harg]
    exact ⟨Real.cos_pi_div_two, Real.sin_pi_div_two⟩

/-- Witness for `c9_turning_angle_transform` at the change set
`{"turning_angle": 90}` and target group `"dynamics_nml"`. -/
theorem c9_turning_angle_transform_witness :
    buildNmlPatch (fun x => Real.cos (x * Real.pi / 180))
        (fun x => Real.sin (x * Real.pi / 180)) "dynamics_nml"
        [("turning_angle", (90 : ℝ))] =
      [("dynamics_nml", buildPatchGroup (fun x => Real.cos (x * Real.pi / 180))
        (fun x => Real.sin (x * Real.pi / 180)) [("turning_angle", (90 : ℝ))])] ∧
    List.lookup "cosw" (buildPatchGroup (fun x => Real.cos (x * Real.pi / 180))
        (fun x => Real.sin (x * Real.pi / 180)) [("turning_angle", (90 : ℝ))]) =
      some (Real.cos ((90 : ℝ) * Real.pi / 180)) ∧
    List.lookup "sinw" (buildPatchGroup (fun x => Real.cos (x * Real.pi / 180))
        (fun x => Real.sin (x * Real.pi / 180)) [("turning_angle", (90 : ℝ))]) =
      some (Real.sin ((90 : ℝ) * Real.pi / 180)) ∧
    List.lookup "turning_angle" (buildPatchGroup (fun x => Real.cos (x * Real.pi / 180))
        (fun x => Real.sin (x * Real.pi / 180)) [("turning_angle", (90 : ℝ))]) = none ∧
    (∀ k w, (k, w) ∈ [("turning_angle", (90 : ℝ))] → k ≠ "turning_angle" →
      List.lookup k (buildPatchGroup (fun x => Real.cos (x * Real.pi / 180))
        (fun x => Real.sin (x * Real.pi / 180)) [("turning_angle", (90 : ℝ))]) = some w) ∧
    ((90 : ℝ) = 90 → Real.cos ((90 : ℝ) * Real.pi / 180) = 0 ∧
      Real.sin ((90 : ℝ) * Real.pi / 180) = 1) :=
  c9_turning_angle_transform "dynamics_nml" 90 [("turning_angle", (90 : ℝ))]
    (List.mem_singleton.mpr rfl) (by simp) (by simp) (by simp)

/-- Python `"_".join(parts)`. -/
def joinUnderscore : List String → String
  | [] => ""
  | [s] => s
  | s :: rest => s ++ "_" ++ joinUnderscore rest

/-- Embedding of `Expts_manager._generate_expt_names` when no
user-supplied name list exists: the underscore-join of the rendered
`f"{k}_{v}"` pairs of the change set, in change-set key order (values
already rendered to strings). -/
def generateExptName (paramDict : List (String × String)) : String :=
  joinUnderscore (paramDict.map fun kv => kv.1 ++ "_" ++ kv.2)

/-- Character-level underscore join; `joinUnderscore` computes exactly
this on `String.data`. -/
def joinU : List (List Char) → List Char
  | [] => []
  | [t] => t
  | t :: rest => t ++ '_' :: joinU rest

/-- The flattened token sequence of a change set: key, value, key,
value, ... as character lists. -/
def nameTokens (cs : List (String × String)) : List (List Char) :=
  cs.flatMap fun kv => [kv.1.data, kv.2.data]

/-- `true` when the string contains no underscore. -/
def noUnderscore (s : String) : Bool :=
  s.data.all fun c => c != '_'

theorem data_underscore : ("_" : String).data = ['_'] := rfl

theorem joinUnderscore_data :
    ∀ parts : List String, (joinUnderscore parts).data = joinU (parts.map String.data) := by
  intro parts
  induction parts with
  | nil => rfl
  | cons s rest ih =>
    cases rest with
    | nil => rfl
    | cons t rest' =>
      simp only [joinUnderscore, List.map_cons, joinU, String.data_append, ih,
        data_underscore, List.append_assoc, List.singleton_append, List.map_cons]

theorem joinU_pairs :
    ∀ cs : List (String × String),
      joinU (cs.map fun kv => kv.1.data ++ '_' :: kv.2.data) = joinU (nameTokens cs) := by
  intro cs
  induction cs with
  | nil => rfl
  | cons kv rest ih =>
    cases rest with
    | nil => rfl
    | cons kv' rest' =>
      simp only [List.map_cons, nameTokens, List.flatMap_cons, List.cons_append,
        List.nil_append, joinU, List.append_assoc] at ih ⊢
      rw [ih]

theorem generateExptName_data (cs : List (String × String)) :
    (generateExptName cs).data = joinU (nameTokens cs) := by
  rw [generateExptName, joinUnderscore_data, List.map_map]
  have : (String.data ∘ fun kv : String × String => kv.1 ++ "_" ++ kv.2) =
      fun kv : String × String => kv.1.data ++ '_' :: kv.2.data := by
    funext kv
    show (kv.1 ++ "_" ++ kv.2).data = _
    rw [String.data_append, String.data_append]
    show kv.1.data ++ ['_'] ++ kv.2.data = _
    rw [List.append_assoc, List.singleton_append]
  rw [this, joinU_pairs]

theorem stringDataInj {s t : String} (h : s.data = t.data) : s = t := by
  cases s
  cases t
  exact congrArg String.mk h

theorem nameTokens_cons (kv : String × String) (rest : List (String × String)) :
    nameTokens (kv :: rest) = kv.1.data :: kv.2.data :: nameTokens rest := by
  simp [nameTokens]

theorem sep_block_inj :
    ∀ (t1 t2 r1 r2 : List Char), '_' ∉ t1 → '_' ∉ t2 →
      t1 ++ '_' :: r1 = t2 ++ '_' :: r2 → t1 = t2 ∧ r1 = r2 := by
  intro t1
  induction t1 with
  | nil =>
    intro t2 r1 r2 _ h2 heq
    cases t2 with
    | nil => simpa using heq
    | cons c t2' =>
      simp only [List.nil_append, List.cons_append, List.cons.injEq] at heq
      exact absurd (List.mem_cons.mpr (Or.inl heq.1)) h2
  | cons c t1' ih =>
    intro t2 r1 r2 h1 h2 heq
    cases t2 with
    | nil =>
      simp only [List.cons_append, List.nil_append, List.cons.injEq] at heq
      exact absurd (List.mem_cons.mpr (Or.inl heq.1.symm)) h1
    | cons d t2' =>
      simp only [List.cons_append, List.cons.injEq] at heq
      have h1' : '_' ∉ t1' := fun h => h1 (List.mem_cons_of_mem _ h)
      have h2' : '_' ∉ t2' := fun h => h2 (List.mem_cons_of_mem _ h)
      obtain ⟨ht, hr⟩ := ih t2' r1 r2 h1' h2' heq.2
      exact ⟨by rw [heq.1, ht], hr⟩

theorem joinU_ne_nil (t t' : List Char) (l : List (List Char)) :
    joinU (t :: t' :: l) ≠ [] := by
  simp only [joinU]
  intro h
  rcases List.append_eq_nil.mp h with ⟨_, h2⟩
  exact List.cons_ne_nil _ _ h2

theorem joinU_inj :
    ∀ (l1 l2 : List (List Char)), l1 ≠ [] → l2 ≠ [] →
      (∀ t ∈ l1, '_' ∉ t) → (∀ t ∈ l2, '_' ∉ t) →
      joinU l1 = joinU l2 → l1 = l2 := by
  intro l1
  induction l1 with
  | nil => intro l2 h; exact absurd rfl h
  | cons t1 rest1 ih =>
    intro l2 _ hl2 h1 h2 heq
    cases l2 with
    | nil => exact absurd rfl hl2
    | cons t2 rest2 =>
      cases rest1 with
      | nil =>
        cases rest2 with
        | nil =>
          have : t1 = t2 := heq
          rw [this]
        | cons t2' rest2' =>
          exfalso
          simp only [joinU] at heq
          apply h1 t1 (List.mem_cons_self t1 [])
          rw [heq]
          exact List.mem_append.mpr (Or.inr (List.mem_cons_self _ _))
      | cons t1' rest1' =>
        cases rest2 with
        | nil =>
          exfalso
          simp only [joinU] at heq
          apply h2 t2 (List.mem_cons_self t2 [])
          rw [← heq]
          exact List.mem_append.mpr (Or.inr (List.mem_cons_self _ _))
        | cons t2' rest2' =>
          simp only [joinU] at heq
          obtain ⟨ht, hr⟩ := sep_block_inj t1 t2 _ _
            (h1 t1 (List.mem_cons_self _ _)) (h2 t2 (List.mem_cons_self _ _)) heq
          have hrest := ih (t2' :: rest2') (List.cons_ne_nil _ _) (List.cons_ne_nil _ _)
            (fun t ht => h1 t (List.mem_cons_of_mem _ ht))
            (fun t ht => h2 t (List.mem_cons_of_mem _ ht)) hr
          rw [ht, hrest]

theorem noUnderscore_spec {s : String} (hs : noUnderscore s = true) : '_' ∉ s.data := by
  intro hmem
  rw [noUnderscore, List.all_eq_true] at hs
  have := hs '_' hmem
  simp at this

theorem nameTokens_sep_free (cs : List (String × String))
    (h : ∀ kv ∈ cs, noUnderscore kv.1 = true ∧ noUnderscore kv.2 = true) :
    ∀ t ∈ nameTokens cs, '_' ∉ t := by
  intro t ht
  rw [nameTokens, List.mem_flatMap] at ht
  obtain ⟨kv, hkv, hin⟩ := ht
  rcases List.mem_cons.mp hin with rfl | hin
  · exact noUnderscore_spec (h kv hkv).1
  · rcases List.mem_cons.mp hin with rfl | hin
    · exact noUnderscore_spec (h kv hkv).2
    · simp at hin

theorem nameTokens_inj :
    ∀ cs1 cs2 : List (String × String), nameTokens cs1 = nameTokens cs2 → cs1 = cs2 := by
  intro cs1
  induction cs1 with
  | nil =>
    intro cs2 h
    cases cs2 with
    | nil => rfl
    | cons kv rest =>
      rw [nameTokens_cons] at h
      exact absurd h.symm (List.cons_ne_nil _ _)
  | cons kv rest1 ih =>
    intro cs2 h
    cases cs2 with
    | nil =>
      rw [nameTokens_cons] at h
      exact absurd h (List.cons_ne_nil _ _)
    | cons kv' rest2 =>
      rw [nameTokens_cons, nameTokens_cons] at h
      simp only [List.cons.injEq] at h
      obtain ⟨hk, hv, hrest⟩ := h
      rw [Prod.ext (stringDataInj hk) (stringDataInj hv), ih rest2 hrest]

/-- **C6 counterexample.** The synthesized directory name is NOT
injective on parameter dicts: the change sets `{"a": "1_b_2"}` and
`{"a_1_b": "2"}` are different but both yield the name `a_1_b_2`,
because keys/rendered values may themselves contain underscores. -/
theorem c6_counterexample_name_collision :
    generateExptName [("a", "1_b_2")] = generateExptName [("a_1_b", "2")] ∧
      [("a", "1_b_2")] ≠ [("a_1_b", "2")] := by
  constructor
  · rfl
  · decide

/-- **C6 (amended).** When no key and no rendered value of either
change set contains an underscore, name synthesis is injective:
`name cs1 = name cs2` iff the two (ordered) parameter dicts are
equal. -/
theorem c6_name_injective_amended (cs1 cs2 : List (String × String))
    (h1 : ∀ kv ∈ cs1, noUnderscore kv.1 = true ∧ noUnderscore kv.2 = true)
    (h2 : ∀ kv ∈ cs2, noUnderscore kv.1 = true ∧ noUnderscore kv.2 = true) :
    generateExptName cs1 = generateExptName cs2 ↔ cs1 = cs2 := by
  constructor
  · intro h
    have hd : joinU (nameTokens cs1) = joinU (nameTokens cs2) := by
      rw [← generateExptName_data, ← generateExptName_data, h]
    cases cs1 with
    | nil =>
      cases cs2 with
      | nil => rfl
      | cons kv rest =>
        exfalso
        rw [nameTokens_cons] at hd
        exact joinU_ne_nil _ _ _ hd.symm
    | cons kv rest1 =>
      cases cs2 with
      | nil =>
        exfalso
        rw [nameTokens_cons] at hd
        exact joinU_ne_nil _ _ _ hd
      | cons kv' rest2 =>
        apply nameTokens_inj
        refine joinU_inj _ _ ?_ ?_ (nameTokens_sep_free _ h1) (nameTokens_sep_free _ h2) hd
        · rw [nameTokens_cons]
          exact List.cons_ne_nil _ _
        · rw [nameTokens_cons]
          exact List.cons_ne_nil _ _
  · intro h
    rw [h]

/-- Witness for `c6_name_injective_amended` at two underscore-free
change sets with distinct keys. -/
theorem c6_name_injective_amended_witness :
    generateExptName [("ahmax", "0.3")] = generateExptName [("rsnw", "0.3")] ↔
      [("ahmax", "0.3")] = [("rsnw", "0.3")] :=
  c6_name_injective_amended [("ahmax", "0.3")] [("rsnw", "0.3")] (by decide) (by decide)

/-- The error cases that can abort the processing of one parameter
group in `Expts_manager._process_parameter_group_common` /
`setup_expts`. -/
inductive ExptError where
  | validationError
  | nameIndexError
  deriving DecidableEq

/-- Embedding of `Expts_manager._valid_expt_names`: the ValueError is
raised only when the user name list is truthy (non-`None` AND
nonempty - Python `if self.expt_names`) and its length differs from
the computed `num_expts`. -/
def validExptNames (exptNames : Option (List String)) (numExpts : Nat) :
    Except ExptError Unit :=
  match exptNames with
  | some l => if l ≠ [] ∧ l.length ≠ numExpts then .error .validationError else .ok ()
  | none => .ok ()

/-- Observable actions of the single-file `setup_expts` loop
(`tag_model != "cb"`, every barrier guard passes): cloning the
experiment directory, then the per-experiment
diag/metadata/jobname/submission block. -/
inductive SimpleAction where
  | clone
  | finalize
  deriving DecidableEq

/-- `Expts_manager._generate_expt_names`: the user list entry at the
experiment index when a list is set, else the synthesized name; `none`
models the IndexError raised when the user list is too short. -/
def exptNameAt (exptNames : Option (List String)) (cs : List (String × String))
    (i : Nat) : Option String :=
  match exptNames with
  | none => some (generateExptName cs)
  | some l => l.get? i

/-- The `setup_expts` loop for a non-cross-block group: for each change
set in order, resolve the experiment name, clone the directory when its
path (determined by the name) is absent, then run the finalize block.
Aborts, keeping the events already performed, when the name lookup
fails. -/
def setupExptsSimple (exptNames : Option (List String)) :
    List (List (String × String)) → Nat → List String →
    List (Nat × SimpleAction) × Option ExptError
  | [], _, _ => ([], none)
  | cs :: rest, i, existing =>
    match exptNameAt exptNames cs i with
    | none => ([], some .nameIndexError)
    | some name =>
      if name ∈ existing then
        let r := setupExptsSimple exptNames rest (i + 1) existing
        ((i, SimpleAction.finalize) :: r.1, r.2)
      else
        let r := setupExptsSimple exptNames rest (i + 1) (name :: existing)
        ((i, SimpleAction.clone) :: (i, SimpleAction.finalize) :: r.1, r.2)

/-- Embedding of the group-processing sequence of
`Expts_manager._process_parameter_group_common` for an individual-mode
group: `_cal_num_expts`, then `_valid_expt_names`, then
`_generate_individual_dicts` feeding `setup_expts`. -/
def processParameterGroupCommon (nameDict : List (String × PValue String))
    (exptNames : Option (List String)) (existing : List String) :
    List (Nat × SimpleAction) × Option ExptError :=
  match validExptNames exptNames (calNumExpts nameDict) with
  | .error e => ([], some e)
  | .ok () => setupExptsSimple exptNames (generateIndividualDicts nameDict) 0 existing

/-- **C7 counterexample.** For the individual-mode group
`{"a": ["1","2"], "b": "3"}` with the user name list `["x"]`, the
expander generates 3 experiments while the list has length 1, yet no
validation error is raised (`_cal_num_expts` computed 1, because a
scalar parameter resets the count) and a directory clone does occur
before the run aborts on the name lookup - contradicting the claim
that a wrong-length list always raises a validation error before any
materialization. -/
theorem c7_counterexample_validation_bypassed :
    ((generateIndividualDicts
        [("a", PValue.vlist ["1", "2"]), ("b", PValue.scalar "3")]).length = 3) ∧
    (["x"].length ≠ 3) ∧
    ((0, SimpleAction.clone) ∈
      (processParameterGroupCommon [("a", PValue.vlist ["1", "2"]), ("b", PValue.scalar "3")]
        (some ["x"]) []).1) ∧
    ((processParameterGroupCommon [("a", PValue.vlist ["1", "2"]), ("b", PValue.scalar "3")]
        (some ["x"]) []).2 ≠ some ExptError.validationError) := by
  refine ⟨rfl, by decide, ?_, by decide⟩
  decide

/-- **C7 (amended).** If the user-supplied name list is nonempty and
its length differs from the computed experiment count (`_cal_num_expts`,
which for an individual-mode group adds each list's length but resets
to 1 at each scalar parameter), the validation error is raised before
anything else: the group performs no clone (no events at all). -/
theorem c7_validation_before_clone_amended (nameDict : List (String × PValue String))
    (l : List String) (existing : List String)
    (hne : l ≠ []) (hlen : l.length ≠ calNumExpts nameDict) :
    processParameterGroupCommon nameDict (some l) existing =
      ([], some ExptError.validationError) := by
  have hv : validExptNames (some l) (calNumExpts nameDict) =
      .error ExptError.validationError := by
    simp only [validExptNames]
    rw [if_pos ⟨hne, hlen⟩]
  simp [processParameterGroupCommon, hv]

/-- Witness for `c7_validation_before_clone_amended`: an all-list group
generating 2 experiments with a single-entry user list. -/
theorem c7_validation_before_clone_amended_witness :
    (["x"] : List String) ≠ [] ∧
    (["x"] : List String).length ≠ calNumExpts [("a", PValue.vlist ["1", "2"])] ∧
    processParameterGroupCommon [("a", PValue.vlist ["1", "2"])] (some ["x"]) [] =
      ([], some ExptError.validationError) :=
  ⟨by decide, by decide,
   c7_validation_before_clone_amended [("a", PValue.vlist ["1", "2"])] ["x"] []
     (by decide) (by decide)⟩

/-- Python `str.rstrip` on characters. -/
def rstripL (l : List Char) : List Char :=
  (l.reverse.dropWhile Char.isWhitespace).reverse

/-- Python `str.lstrip` on characters. -/
def lstripL (l : List Char) : List Char :=
  l.dropWhile Char.isWhitespace

/-- Python `str.strip` on characters. -/
def stripL (l : List Char) : List Char :=
  lstripL (rstripL l)

/-- Python `line.split(sep, 1)` restricted to its success case: the
text before the first occurrence of `sep` and the text after it;
`none` when `sep` does not occur (`sep` is assumed nonempty). -/
def splitFirstL (sep : List Char) : List Char → Option (List Char × List Char)
  | [] => none
  | c :: rest =>
    if sep.isPrefixOf (c :: rest) then some ([], (c :: rest).drop sep.length)
    else
      match splitFirstL sep rest with
      | some (a, b) => some (c :: a, b)
      | none => none

/-- The `"Job Id:"` marker. -/
def jobIdMarker : List Char := ['J', 'o', 'b', ' ', 'I', 'd', ':']

/-- Four spaces - the new key/value pair indentation. -/
def fourSpaces : List Char := [' ', ' ', ' ', ' ']

/-- Eight spaces - the continuation-line indentation. -/
def eightSpaces : List Char := fourSpaces ++ fourSpaces

/-- The `" = "` key/value separator. -/
def sepEq : List Char := [' ', '=', ' ']

/-- Parser state of `PBSJobManager.output_existing_pbs_jobs`
(equivalently `Expts_manager._output_existing_pbs_jobs`): the
`pbs_jobs` dict (job id to attribute dict, insertion-ordered), the
current `job_id`, and the pending `current_key`/`current_value`
pair. -/
structure ParseState where
  jobs : List (List Char × List (List Char × List Char))
  jobId : Option (List Char)
  curKey : Option (List Char)
  curVal : List Char

/-- `pbs_jobs[job_id] = {}` - overwrite in place, else append. -/
def setJob (jobs : List (List Char × List (List Char × List Char))) (j : List Char) :
    List (List Char × List (List Char × List Char)) :=
  match jobs with
  | [] => [(j, [])]
  | (j', attrs) :: rest =>
    if j' = j then (j, []) :: rest else (j', attrs) :: setJob rest j

/-- `d[k] = v` on an insertion-ordered dict. -/
def setPairL (attrs : List (List Char × List Char)) (k v : List Char) :
    List (List Char × List Char) :=
  match attrs with
  | [] => [(k, v)]
  | (k', v') :: rest =>
    if k' = k then (k, v) :: rest else (k', v') :: setPairL rest k v

/-- `pbs_jobs[job_id][k] = v`. -/
def updateJob (jobs : List (List Char × List (List Char × List Char)))
    (j k v : List Char) : List (List Char × List (List Char × List Char)) :=
  match jobs with
  | [] => []
  | (j', attrs) :: rest =>
    if j' = j then (j', setPairL attrs k v) :: rest
    else (j', attrs) :: updateJob rest j k v

/-- `pbs_jobs[job_id][k] = v` with the current `job_id`; a `none` job
id leaves the dict unchanged (the source would raise KeyError there,
which is unreachable for dumps that begin with a `Job Id:` line). -/
def storePending (jobs : List (List Char × List (List Char × List Char)))
    (jobId : Option (List Char)) (k v : List Char) :
    List (List Char × List (List Char × List Char)) :=
  match jobId with
  | none => jobs
  | some j => updateJob jobs j k v

/-- Python truthiness of `current_key` (`None` and `""` are falsy). -/
def curKeyTruthy : Option (List Char) → Bool
  | some k => !k.isEmpty
  | none => false

/-- One iteration of the line-parsing loop of
`output_existing_pbs_jobs`, mirroring its branch structure: `rstrip`,
skip blank lines, `Job Id:` lines reset the record and DISCARD any
pending pair, 8-space lines extend the pending value, 4-space
`key = value` lines first flush the pending pair and then start a new
pending pair. -/
def stepLine (s : ParseState) (rawLine : List Char) : ParseState :=
  let line := rstripL rawLine
  if line.isEmpty then s
  else if jobIdMarker.isPrefixOf line then
    match splitFirstL [':'] line with
    | some (_, after) =>
      { jobs := setJob s.jobs (stripL after), jobId := some (stripL after),
        curKey := none, curVal := [] }
    | none => s
  else if eightSpaces.isPrefixOf line && curKeyTruthy s.curKey then
    { s with curVal := s.curVal ++ stripL line }
  else if fourSpaces.isPrefixOf line && (splitFirstL sepEq line).isSome then
    match splitFirstL sepEq line with
    | some (before, after) =>
      { jobs :=
          if curKeyTruthy s.curKey then
            storePending s.jobs s.jobId (s.curKey.getD []) (stripL s.curVal)
          else s.jobs,
        jobId := s.jobId, curKey := some (stripL before), curVal := stripL after }
    | none => s
  else s

/-- `output_existing_pbs_jobs` over the dump's lines (after the global
tab replacement and `splitlines`): fold the line parser from the empty
state and return `pbs_jobs`.  The final pending pair is never
flushed. -/
def parseQstat (lines : List (List Char)) :
    List (List Char × List (List Char × List Char)) :=
  (lines.foldl stepLine ⟨[], none, none, []⟩).jobs

/-- The `Job Id: <id>` line of a canonical dump. -/
def jobLine (j : List Char) : List Char := jobIdMarker ++ ' ' :: j

/-- The `    <key> = <value>` line of a canonical dump. -/
def pairLine (kv : List Char × List Char) : List Char :=
  fourSpaces ++ kv.1 ++ sepEq ++ kv.2

/-- A canonical qstat dump: one `Job Id:` line per record followed by
one 4-space `key = value` line per attribute. -/
def mkDump (jobs : List (List Char × List (List Char × List Char))) : List (List Char) :=
  jobs.flatMap fun jp => jobLine jp.1 :: jp.2.map pairLine

/-- A well-formed qstat token: nonempty, free of whitespace and of
`'='`. -/
def goodTok (t : List Char) : Bool :=
  !t.isEmpty && t.all fun c => !c.isWhitespace && c != '='

/-- The state after a `Job Id:` line or while a pending pair is held:
`pend = some (k, v)` models `current_key = k, current_value = v`. -/
def pendState (jobs : List (List Char × List (List Char × List Char)))
    (j : List Char) (pend : Option (List Char × List Char)) : ParseState :=
  { jobs := jobs, jobId := some j,
    curKey := pend.map Prod.fst,
    curVal := match pend with | none => [] | some q => q.2 }

/-- Sequential flushing of pending pairs over the pair lines of one
record: the pending pair is stored when the next pair arrives; the last
pending pair is returned unstored. -/
def modelStore (attrs : List (List Char × List Char)) :
    Option (List Char × List Char) → List (List Char × List Char) →
    List (List Char × List Char) × Option (List Char × List Char)
  | pend, [] => (attrs, pend)
  | none, p :: rest => modelStore attrs (some p) rest
  | some q, p :: rest => modelStore (setPairL attrs q.1 q.2) (some p) rest

/-- `foldl` of dict assignment over a pair list. -/
def storeFold (attrs : List (List Char × List Char))
    (l : List (List Char × List Char)) : List (List Char × List Char) :=
  l.foldl (fun a q => setPairL a q.1 q.2) attrs

theorem goodTok_ne_nil {t : List Char} (h : goodTok t = true) : t ≠ [] := by
  intro he
  subst he
  exact absurd h (by decide)

theorem goodTok_no_ws {t : List Char} (h : goodTok t = true) :
    ∀ c ∈ t, c.isWhitespace = false := by
  rw [goodTok, Bool.and_eq_true, List.all_eq_true] at h
  intro c hc
  have h2 := h.2 c hc
  rw [Bool.and_eq_true] at h2
  simpa using h2.1

theorem goodTok_no_eqchar {t : List Char} (h : goodTok t = true) : ∀ c ∈ t, c ≠ '=' := by
  rw [goodTok, Bool.and_eq_true, List.all_eq_true] at h
  intro c hc
  have h2 := h.2 c hc
  rw [Bool.and_eq_true] at h2
  simpa using h2.2

theorem rstripL_append_good (xs v : List Char) (hne : v ≠ [])
    (hws : ∀ c ∈ v, c.isWhitespace = false) : rstripL (xs ++ v) = xs ++ v := by
  rw [rstripL, List.reverse_append]
  cases hv : v.reverse with
  | nil => exact absurd (List.reverse_eq_nil_iff.mp hv) hne
  | cons c rest =>
    have hc : c ∈ v := by
      rw [← List.mem_reverse, hv]
      exact List.mem_cons_self c rest
    rw [List.cons_append, List.dropWhile_cons, hws c hc]
    simp only [Bool.false_eq_true, if_false]
    have hrw : c :: (rest ++ xs.reverse) = (xs ++ v).reverse := by
      rw [List.reverse_append, hv, List.cons_append]
    rw [hrw, List.reverse_reverse]

theorem lstripL_no_ws (t : List Char) (h : ∀ c ∈ t, c.isWhitespace = false) :
    lstripL t = t := by
  cases t with
  | nil => rfl
  | cons c rest =>
    rw [lstripL, List.dropWhile_cons, h c (List.mem_cons_self c rest)]
    simp

theorem lstripL_ws_append (sp t : List Char) (hsp : ∀ c ∈ sp, c.isWhitespace = true) :
    lstripL (sp ++ t) = lstripL t := by
  induction sp with
  | nil => rfl
  | cons c rest ih =>
    rw [List.cons_append, lstripL, List.dropWhile_cons, hsp c (List.mem_cons_self c rest)]
    simp only [if_true]
    exact ih (fun c hc => hsp c (List.mem_cons_of_mem _ hc))

theorem stripL_good {t : List Char} (h : goodTok t = true) : stripL t = t := by
  have hr : rstripL t = t := by
    have := rstripL_append_good [] t (goodTok_ne_nil h) (goodTok_no_ws h)
    simpa using this
  rw [stripL, hr, lstripL_no_ws t (goodTok_no_ws h)]

theorem stripL_ws_prepend (sp t : List Char) (hsp : ∀ c ∈ sp, c.isWhitespace = true)
    (h : goodTok t = true) : stripL (sp ++ t) = t := by
  rw [stripL, rstripL_append_good sp t (goodTok_ne_nil h) (goodTok_no_ws h),
    lstripL_ws_append sp t hsp, lstripL_no_ws t (goodTok_no_ws h)]

theorem isPrefixOf_append_self (l r : List Char) : l.isPrefixOf (l ++ r) = true :=
  List.isPrefixOf_iff_prefix.mpr (List.prefix_append l r)

theorem splitFirstL_at_sep :
    ∀ (block rest : List Char), (∀ c ∈ block, c ≠ '=') →
      splitFirstL sepEq (block ++ sepEq ++ rest) = some (block, rest) := by
  intro block
  induction block with
  | nil =>
    intro rest _
    have hform : ([] : List Char) ++ sepEq ++ rest = ' ' :: ('=' :: ' ' :: rest) := rfl
    rw [hform]
    simp only [splitFirstL]
    rw [show sepEq.isPrefixOf (' ' :: '=' :: ' ' :: rest) = true from
      isPrefixOf_append_self sepEq rest]
    simp [sepEq]
  | cons b bs ih =>
    intro rest hb
    have hpre : sepEq.isPrefixOf (b :: (bs ++ sepEq ++ rest)) = false := by
      rw [Bool.eq_false_iff]
      intro h
      rw [List.isPrefixOf_iff_prefix] at h
      obtain ⟨hb1, h2⟩ := List.cons_prefix_cons.mp h
      cases bs with
      | nil =>
        obtain ⟨hb2, _⟩ := List.cons_prefix_cons.mp h2
        exact absurd hb2.symm (by decide)
      | cons b' bs' =>
        obtain ⟨hb2, _⟩ := List.cons_prefix_cons.mp h2
        exact hb b' (List.mem_cons_of_mem _ (List.mem_cons_self b' bs')) hb2.symm
    have hform : (b :: bs) ++ sepEq ++ rest = b :: (bs ++ sepEq ++ rest) := by simp
    rw [hform]
    simp only [splitFirstL, hpre, Bool.false_eq_true, if_false,
      ih rest (fun c hc => hb c (List.mem_cons_of_mem _ hc))]

theorem splitFirstL_job (j : List Char) :
    splitFirstL [':'] (jobLine j) = some (['J', 'o', 'b', ' ', 'I', 'd'], ' ' :: j) := rfl

theorem goodTok_not_isEmpty {t : List Char} (h : goodTok t = true) : t.isEmpty = false := by
  cases t with
  | nil => exact absurd h (by decide)
  | cons c rest => rfl

theorem jobIdMarker_not_prefix_space (t : List Char) :
    jobIdMarker.isPrefixOf (' ' :: t) = false := by
  rw [Bool.eq_false_iff]
  intro h
  rw [List.isPrefixOf_iff_prefix] at h
  obtain ⟨h1, _⟩ := List.cons_prefix_cons.mp h
  exact absurd h1 (by decide)

theorem eightSpaces_not_prefix (kh : Char) (hkh : kh ≠ ' ') (t : List Char) :
    eightSpaces.isPrefixOf (' ' :: ' ' :: ' ' :: ' ' :: kh :: t) = false := by
  rw [Bool.eq_false_iff]
  intro h
  rw [List.isPrefixOf_iff_prefix] at h
  obtain ⟨_, h⟩ := List.cons_prefix_cons.mp h
  obtain ⟨_, h⟩ := List.cons_prefix_cons.mp h
  obtain ⟨_, h⟩ := List.cons_prefix_cons.mp h
  obtain ⟨_, h⟩ := List.cons_prefix_cons.mp h
  obtain ⟨h5, _⟩ := List.cons_prefix_cons.mp h
  exact hkh h5.symm

theorem setJob_append :
    ∀ (jobs : List (List Char × List (List Char × List Char))) (j : List Char),
      (∀ p ∈ jobs, p.1 ≠ j) → setJob jobs j = jobs ++ [(j, [])] := by
  intro jobs
  induction jobs with
  | nil => intro j _; rfl
  | cons p rest ih =>
    intro j hj
    obtain ⟨j', attrs⟩ := p
    rw [setJob, if_neg (hj (j', attrs) (List.mem_cons_self _ _)),
      ih j (fun p hp => hj p (List.mem_cons_of_mem _ hp)), List.cons_append]

theorem setPairL_append :
    ∀ (attrs : List (List Char × List Char)) (k v : List Char),
      (∀ p ∈ attrs, p.1 ≠ k) → setPairL attrs k v = attrs ++ [(k, v)] := by
  intro attrs
  induction attrs with
  | nil => intro k v _; rfl
  | cons p rest ih =>
    intro k v hk
    obtain ⟨k', v'⟩ := p
    rw [setPairL, if_neg (hk (k', v') (List.mem_cons_self _ _)),
      ih k v (fun p hp => hk p (List.mem_cons_of_mem _ hp)), List.cons_append]

theorem updateJob_append :
    ∀ (pre : List (List Char × List (List Char × List Char)))
      (j : List Char) (attrs : List (List Char × List Char)) (k v : List Char),
      (∀ p ∈ pre, p.1 ≠ j) →
      updateJob (pre ++ [(j, attrs)]) j k v = pre ++ [(j, setPairL attrs k v)] := by
  intro pre
  induction pre with
  | nil =>
    intro j attrs k v _
    simp [updateJob]
  | cons p rest ih =>
    intro j attrs k v hj
    obtain ⟨j', attrs'⟩ := p
    rw [List.cons_append, updateJob, if_neg (hj (j', attrs') (List.mem_cons_self _ _)),
      ih j attrs k v (fun p hp => hj p (List.mem_cons_of_mem _ hp)), List.cons_append]

theorem rstripL_pairLine (k v : List Char) (hv : goodTok v = true) :
    rstripL (pairLine (k, v)) = pairLine (k, v) :=
  rstripL_append_good (fourSpaces ++ k ++ sepEq) v (goodTok_ne_nil hv) (goodTok_no_ws hv)

theorem splitFirstL_pairLine (k v : List Char) (hk : goodTok k = true) :
    splitFirstL sepEq (pairLine (k, v)) = some (fourSpaces ++ k, v) := by
  apply splitFirstL_at_sep
  intro c hc
  rcases List.mem_append.mp hc with hc | hc
  · simp only [fourSpaces, List.mem_cons, List.not_mem_nil, or_false] at hc
    rcases hc with rfl | rfl | rfl | rfl <;> decide
  · exact goodTok_no_eqchar hk c hc

theorem stepLine_pairLine (pre : List (List Char × List (List Char × List Char)))
    (j : List Char) (attrs : List (List Char × List Char))
    (pend : Option (List Char × List Char)) (k v : List Char)
    (hk : goodTok k = true) (hv : goodTok v = true)
    (hpend : ∀ q, pend = some q → goodTok q.1 = true ∧ goodTok q.2 = true)
    (hj : ∀ p ∈ pre, p.1 ≠ j) :
    stepLine (pendState (pre ++ [(j, attrs)]) j pend) (pairLine (k, v)) =
      pendState
        (pre ++ [(j, match pend with
          | none => attrs
          | some q => setPairL attrs q.1 q.2)]) j (some (k, v)) := by
  obtain ⟨kh, kt, rfl⟩ : ∃ kh kt, k = kh :: kt := by
    cases hke : k with
    | nil => exact absurd (hke ▸ hk) (by decide)
    | cons kh kt => exact ⟨kh, kt, rfl⟩
  have hkh : kh ≠ ' ' := by
    intro he
    have := goodTok_no_ws hk kh (List.mem_cons_self _ _)
    rw [he] at this
    exact absurd this (by decide)
  have hshape : pairLine (kh :: kt, v) =
      ' ' :: ' ' :: ' ' :: ' ' :: kh :: (kt ++ sepEq ++ v) := by
    simp [pairLine, fourSpaces, List.append_assoc]
  have hA : (pairLine (kh :: kt, v)).isEmpty = false := by
    rw [hshape]
    rfl
  have hB : jobIdMarker.isPrefixOf (pairLine (kh :: kt, v)) = false := by
    rw [hshape]
    exact jobIdMarker_not_prefix_space _
  have hC : eightSpaces.isPrefixOf (pairLine (kh :: kt, v)) = false := by
    rw [hshape]
    exact eightSpaces_not_prefix kh hkh _
  have hD : fourSpaces.isPrefixOf (pairLine (kh :: kt, v)) = true :=
    isPrefixOf_append_self fourSpaces _
  have hE : splitFirstL sepEq (pairLine (kh :: kt, v)) =
      some (fourSpaces ++ (kh :: kt), v) := splitFirstL_pairLine _ _ hk
  have hstripk : stripL (fourSpaces ++ (kh :: kt)) = kh :: kt :=
    stripL_ws_prepend fourSpaces _ (by decide) hk
  have hstripv : stripL v = v := stripL_good hv
  simp only [stepLine, rstripL_pairLine _ _ hv, hA, hB, hC, hD, hE, Bool.false_eq_true,
    if_false, Bool.false_and, Option.isSome_some, Bool.true_and, if_true, hstripk, hstripv]
  cases pend with
  | none =>
    simp only [pendState, Option.map_none', Option.map_some', curKeyTruthy,
      Bool.false_eq_true, if_false]
  | some q =>
    obtain ⟨hq1, hq2⟩ := hpend q rfl
    simp only [pendState, Option.map_some', curKeyTruthy, goodTok_not_isEmpty hq1,
      Bool.not_false, if_true, Option.getD_some, storePending, stripL_good hq2,
      updateJob_append pre j attrs q.1 q.2 hj]

theorem stepLine_jobLine (s : ParseState) (j : List Char) (hj : goodTok j = true) :
    stepLine s (jobLine j) =
      { jobs := setJob s.jobs j, jobId := some j, curKey := none, curVal := [] } := by
  have hr : rstripL (jobLine j) = jobLine j := by
    have h := rstripL_append_good (jobIdMarker ++ [' ']) j (goodTok_ne_nil hj)
      (goodTok_no_ws hj)
    simpa [jobLine, List.append_assoc] using h
  have hA : (jobLine j).isEmpty = false := rfl
  have hB : jobIdMarker.isPrefixOf (jobLine j) = true := isPrefixOf_append_self _ _
  have hsplit := splitFirstL_job j
  have hstrip : stripL (' ' :: j) = j := by
    have h := stripL_ws_prepend [' '] j (by decide) hj
    simpa using h
  simp only [stepLine, hr, hA, Bool.false_eq_true, if_false, hB, if_true, hsplit, hstrip]

theorem foldPairs (j : List Char) :
    ∀ (ps : List (List Char × List Char))
      (pre : List (List Char × List (List Char × List Char)))
      (attrs : List (List Char × List Char)) (pend : Option (List Char × List Char)),
      (∀ kv ∈ ps, goodTok kv.1 = true ∧ goodTok kv.2 = true) →
      (∀ q, pend = some q → goodTok q.1 = true ∧ goodTok q.2 = true) →
      (∀ p ∈ pre, p.1 ≠ j) →
      (ps.map pairLine).foldl stepLine (pendState (pre ++ [(j, attrs)]) j pend) =
        pendState (pre ++ [(j, (modelStore attrs pend ps).1)]) j
          (modelStore attrs pend ps).2 := by
  intro ps
  induction ps with
  | nil =>
    intro pre attrs pend _ _ _
    simp [modelStore]
  | cons p rest ih =>
    intro pre attrs pend hps hpend hj
    rw [List.map_cons, List.foldl_cons]
    rw [show pairLine p = pairLine (p.1, p.2) from rfl]
    rw [stepLine_pairLine pre j attrs pend p.1 p.2
      (hps p (List.mem_cons_self p rest)).1 (hps p (List.mem_cons_self p rest)).2 hpend hj]
    have hps' : ∀ kv ∈ rest, goodTok kv.1 = true ∧ goodTok kv.2 = true :=
      fun kv hkv => hps kv (List.mem_cons_of_mem _ hkv)
    have hpend' : ∀ q, (some (p.1, p.2) : Option (List Char × List Char)) = some q →
        goodTok q.1 = true ∧ goodTok q.2 = true := by
      intro q hq
      cases hq
      exact hps p (List.mem_cons_self p rest)
    cases pend with
    | none =>
      rw [ih pre attrs (some (p.1, p.2)) hps' hpend' hj]
      simp only [modelStore]
    | some q =>
      rw [ih pre (setPairL attrs q.1 q.2) (some (p.1, p.2)) hps' hpend' hj]
      simp only [modelStore]

theorem modelStore_some :
    ∀ (ps : List (List Char × List Char)) (attrs : List (List Char × List Char))
      (q : List Char × List Char),
      modelStore attrs (some q) ps =
        (storeFold attrs ((q :: ps).dropLast), (q :: ps).getLast?) := by
  intro ps
  induction ps with
  | nil =>
    intro attrs q
    simp [modelStore, storeFold]
  | cons p rest ih =>
    intro attrs q
    rw [show modelStore attrs (some q) (p :: rest) =
      modelStore (setPairL attrs q.1 q.2) (some p) rest from rfl, ih]
    rw [List.dropLast_cons_of_ne_nil (List.cons_ne_nil p rest), List.getLast?_cons_cons]
    rfl

theorem storeFold_fresh :
    ∀ (l attrs : List (List Char × List Char)),
      (∀ q ∈ l, ∀ p ∈ attrs, p.1 ≠ q.1) → (l.map Prod.fst).Nodup →
      storeFold attrs l = attrs ++ l := by
  intro l
  induction l with
  | nil => intro attrs _ _; simp [storeFold]
  | cons q rest ih =>
    intro attrs hfresh hnodup
    rw [List.map_cons, List.nodup_cons] at hnodup
    have hset : setPairL attrs q.1 q.2 = attrs ++ [q] :=
      setPairL_append attrs q.1 q.2 (fun p hp => hfresh q (List.mem_cons_self q rest) p hp)
    have hfresh' : ∀ q' ∈ rest, ∀ p ∈ attrs ++ [q], p.1 ≠ q'.1 := by
      intro q' hq' p hp
      rcases List.mem_append.mp hp with hp | hp
      · exact hfresh q' (List.mem_cons_of_mem _ hq') p hp
      · rw [List.mem_singleton.mp hp]
        intro he
        exact hnodup.1 (he ▸ List.mem_map.mpr ⟨q', hq', rfl⟩)
    show storeFold (setPairL attrs q.1 q.2) rest = attrs ++ q :: rest
    rw [hset, ih (attrs ++ [q]) hfresh' hnodup.2, List.append_assoc, List.singleton_append]

theorem modelStore_dropLast (ps : List (List Char × List Char))
    (hnodup : (ps.map Prod.fst).Nodup) :
    (modelStore [] none ps).1 = ps.dropLast := by
  cases ps with
  | nil => rfl
  | cons p rest =>
    rw [show modelStore [] none (p :: rest) = modelStore [] (some p) rest from rfl,
      modelStore_some]
    show storeFold [] ((p :: rest).dropLast) = (p :: rest).dropLast
    rw [storeFold_fresh ((p :: rest).dropLast) [] (by intro q _ p hp; simp at hp) ?_]
    · simp
    · rw [List.map_dropLast]
      exact hnodup.sublist (List.dropLast_sublist _)

theorem pendState_jobs (a : List (List Char × List (List Char × List Char)))
    (j : List Char) (p : Option (List Char × List Char)) : (pendState a j p).jobs = a := rfl

theorem parse_mkDump_aux :
    ∀ (jobs : List (List Char × List (List Char × List Char))) (s : ParseState),
      (jobs.map Prod.fst).Nodup →
      (∀ jp ∈ jobs, goodTok jp.1 = true ∧
        ∀ kv ∈ jp.2, goodTok kv.1 = true ∧ goodTok kv.2 = true) →
      (∀ jp ∈ jobs, ∀ p ∈ s.jobs, p.1 ≠ jp.1) →
      ((mkDump jobs).foldl stepLine s).jobs =
        s.jobs ++ jobs.map (fun jp => (jp.1, (modelStore [] none jp.2).1)) := by
  intro jobs
  induction jobs with
  | nil =>
    intro s _ _ _
    simp [mkDump]
  | cons jp rest ih =>
    intro s hids hgood hacc
    obtain ⟨j, ps⟩ := jp
    rw [List.map_cons, List.nodup_cons] at hids
    have hgj := (hgood (j, ps) (List.mem_cons_self _ _)).1
    have hgps := (hgood (j, ps) (List.mem_cons_self _ _)).2
    have hjacc : ∀ p ∈ s.jobs, p.1 ≠ j := fun p hp =>
      hacc (j, ps) (List.mem_cons_self _ _) p hp
    rw [show mkDump ((j, ps) :: rest) = (jobLine j :: ps.map pairLine) ++ mkDump rest from
      by simp [mkDump]]
    rw [List.foldl_append, List.foldl_cons]
    have hstate1 : stepLine s (jobLine j) = pendState (s.jobs ++ [(j, [])]) j none := by
      rw [stepLine_jobLine s j hgj, setJob_append s.jobs j hjacc]
      rfl
    rw [hstate1, foldPairs j ps s.jobs [] none hgps (fun q hq => by cases hq) hjacc]
    have hfresh' : ∀ jp ∈ rest,
        ∀ p ∈ (pendState (s.jobs ++ [(j, (modelStore [] none ps).1)]) j
          (modelStore [] none ps).2).jobs, p.1 ≠ jp.1 := by
      rw [pendState_jobs]
      intro jp hjp p hp
      rcases List.mem_append.mp hp with hp | hp
      · exact hacc jp (List.mem_cons_of_mem _ hjp) p hp
      · rw [List.mem_singleton.mp hp]
        intro he
        exact hids.1 (he ▸ List.mem_map.mpr ⟨jp, hjp, rfl⟩)
    rw [ih _ hids.2 (fun jp hjp => hgood jp (List.mem_cons_of_mem _ hjp)) hfresh',
      pendState_jobs]
    simp [List.append_assoc]

theorem lookupC_eq_none_of_keys (a : List Char) :
    ∀ l : List (List Char × List Char), a ∉ l.map Prod.fst → List.lookup a l = none := by
  intro l
  induction l with
  | nil => intro _; rfl
  | cons kv rest ih =>
    intro h
    obtain ⟨k, v⟩ := kv
    simp only [List.map_cons, List.mem_cons, not_or] at h
    have hbeq : (a == k) = false := by
      simp only [beq_eq_false_iff_ne, ne_eq]
      exact h.1
    simp only [List.lookup, hbeq]
    exact ih h.2

theorem lookup_map_records
    (f : (List Char × List (List Char × List Char)) → List (List Char × List Char)) :
    ∀ (jobs : List (List Char × List (List Char × List Char)))
      (jp : List Char × List (List Char × List Char)),
      jp ∈ jobs → (jobs.map Prod.fst).Nodup →
      List.lookup jp.1 (jobs.map fun x => (x.1, f x)) = some (f jp) := by
  intro jobs
  induction jobs with
  | nil => intro jp h _; simp at h
  | cons x rest ih =>
    intro jp hjp hnodup
    rw [List.map_cons, List.nodup_cons] at hnodup
    rcases List.mem_cons.mp hjp with rfl | hjp
    · rw [List.map_cons]
      simp [List.lookup]
    · have hne : (jp.1 == x.1) = false := by
        simp only [beq_eq_false_iff_ne, ne_eq]
        intro he
        exact hnodup.1 (he ▸ List.mem_map.mpr ⟨jp, hjp, rfl⟩)
      rw [List.map_cons]
      simp only [List.lookup, hne]
      exact ih jp hjp hnodup.2

/-- **C10.** On a canonical scheduler dump (one `Job Id:` line per
record followed by one 4-space `key = value` line per attribute, with
well-formed distinct tokens), the parser returns, for every record,
exactly its attributes WITHOUT the last one: a pending pair is stored
only when a following 4-space pair line arrives, and the pair pending
at the next `Job Id:` line or at end of input is discarded.  In
particular the last attribute of every record (including the final
record) is absent from the returned dictionary. -/
theorem c10_qstat_parser_drops_last
    (jobs : List (List Char × List (List Char × List Char)))
    (hids : (jobs.map Prod.fst).Nodup)
    (hgood : ∀ jp ∈ jobs, goodTok jp.1 = true ∧
      (jp.2.map Prod.fst).Nodup ∧
      ∀ kv ∈ jp.2, goodTok kv.1 = true ∧ goodTok kv.2 = true) :
    parseQstat (mkDump jobs) = jobs.map (fun jp => (jp.1, jp.2.dropLast)) ∧
    ∀ jp ∈ jobs, ∀ q, jp.2.getLast? = some q →
      List.lookup jp.1 (parseQstat (mkDump jobs)) = some jp.2.dropLast ∧
      List.lookup q.1 jp.2.dropLast = none := by
  have hmain : parseQstat (mkDump jobs) = jobs.map (fun jp => (jp.1, jp.2.dropLast)) := by
    rw [parseQstat, parse_mkDump_aux jobs ⟨[], none, none, []⟩ hids
      (fun jp hjp => ⟨(hgood jp hjp).1, (hgood jp hjp).2.2⟩)
      (fun jp _ p hp => absurd hp (List.not_mem_nil p))]
    simp only [show (⟨[], none, none, []⟩ : ParseState).jobs = [] from rfl, List.nil_append]
    apply List.map_congr_left
    intro jp hjp
    rw [modelStore_dropLast jp.2 (hgood jp hjp).2.1]
  refine ⟨hmain, ?_⟩
  intro jp hjp q hq
  constructor
  · rw [hmain]
    exact lookup_map_records (fun x => x.2.dropLast) jobs jp hjp hids
  · obtain ⟨init, hinit⟩ := List.getLast?_eq_some_iff.mp hq
    have hkeys := (hgood jp hjp).2.1
    rw [hinit] at hkeys ⊢
    rw [List.dropLast_concat]
    rw [List.map_append] at hkeys
    apply lookupC_eq_none_of_keys
    intro hmem
    rcases List.nodup_append.mp hkeys with ⟨_, _, hdisj⟩
    exact hdisj hmem (by simp)

/-- Witness for `c10_qstat_parser_drops_last`: a single job with two
attributes; the parser keeps only the first. -/
theorem c10_qstat_parser_drops_last_witness :
    parseQstat (mkDump [("1.gadi".data,
        [("Job_Name".data, "test".data), ("job_state".data, "R".data)])]) =
      [("1.gadi".data,
        [("Job_Name".data, "test".data), ("job_state".data, "R".data)])].map
        (fun jp => (jp.1, jp.2.dropLast)) ∧
    ∀ jp ∈ [("1.gadi".data,
        [("Job_Name".data, "test".data), ("job_state".data, "R".data)])],
      ∀ q, jp.2.getLast? = some q →
        List.lookup jp.1 (parseQstat (mkDump [("1.gadi".data,
          [("Job_Name".data, "test".data), ("job_state".data, "R".data)])])) =
            some jp.2.dropLast ∧
        List.lookup q.1 jp.2.dropLast = none :=
  c10_qstat_parser_drops_last
    [("1.gadi".data, [("Job_Name".data, "test".data), ("job_state".data, "R".data)])]
    (by decide) (by decide)
